import Mathlib

/-!
Verification development for the healthcare-claims fraud-scoring ensemble
(`fraud-detection/models/ensemble_model.py`, `random_forest_model.py`,
`autoencoder_model.py`, `kmeans_model.py`).

Embedding conventions:
* Python floats are embedded as exact rationals (`ℚ`); float literals such as
  `0.5`, `1e-8`, `0.2` denote the corresponding exact rationals.
* numpy vectors become `List ℚ` / `List ℕ`; parallel arrays are combined with
  explicit zips, mirroring elementwise numpy arithmetic.
* fallible operations (Python exceptions such as `ValueError` / `KeyError`)
  are embedded with `Option`: `none` is a raised exception.
* `pandas.Series.std()` is `√(sample variance)` (ddof = 1, `NaN` for fewer
  than two entries, and a comparison with `NaN` is false).  A real square
  root is not representable in `ℚ`; we use `Rat.sqrt`, which agrees with the
  real square root exactly on perfect-square rationals — every variance
  appearing in a concrete theorem input below is a perfect square — and
  satisfies `Rat.sqrt v > 0 ↔ v > 0` on nonnegative `v`, so the source guard
  `std() > 0` is embedded faithfully.
-/

/-- Ensemble weights: the `self.weights` dict `{'rf': _, 'ae': _, 'kmeans': _}`
of `FraudDetectionEnsemble`. -/

structure Weights where
  rf : ℚ
  ae : ℚ
  km : ℚ
deriving DecidableEq, Repr


/-- The constructor default `{'rf': 0.5, 'ae': 0.3, 'kmeans': 0.2}`
(`ensemble_model.py` line 41). -/
def defaultWeights : Weights := ⟨1/2, 3/10, 1/5⟩


/-- `FraudDetectionEnsemble.set_weights` (`ensemble_model.py` lines 50–59):
divides each incoming weight by the total before storing. -/
def setWeights (rf_weight ae_weight kmeans_weight : ℚ) : Weights :=
  let total_weight := rf_weight + ae_weight + kmeans_weight
  ⟨rf_weight / total_weight, ae_weight / total_weight, kmeans_weight / total_weight⟩


/-- The `self.voting_method` field: one of `'weighted'`, `'majority'`,
`'unanimous'` (`ensemble_model.py` line 42). -/
inductive VotingMethod where
  | weighted
  | majority
  | unanimous
deriving DecidableEq, Repr


/-- `ae_proba = (ae_scores - ae_scores.min()) / (ae_scores.max() - ae_scores.min() + 1e-8)`
needs the numpy min of a score vector; numpy raises on an empty array, whose
min/max we conventionally set to `0` (the normalised list is then empty and
every elementwise statement is vacuous). -/
def listMin : List ℚ → ℚ
  | [] => 0
  | x :: xs => xs.foldl min x


/-- numpy `max` of a vector, see `listMin`. -/
def listMax : List ℚ → ℚ
  | [] => 0
  | x :: xs => xs.foldl max x


/-- Min–max normalisation of the autoencoder reconstruction errors into
probabilities (`ensemble_model.py` line 171):
`(ae_scores - min) / (max - min + 1e-8)`. -/
def aeProbaOf (ae_scores : List ℚ) : List ℚ :=
  ae_scores.map (fun s =>
    (s - listMin ae_scores) / (listMax ae_scores - listMin ae_scores + 1/100000000))


/-- Elementwise combination of one row of the three adapters' outputs,
following `ensemble_model.py` lines 176–202.  `rf`, `ae`, `km` are the three
probabilities, `aeV` is the autoencoder's own binary vote `ae_pred` (derived
from its stored reconstruction-error threshold, not from `ae_proba`).
Returns `(label, probability)`. -/
def combineRow (w : Weights) (m : VotingMethod) (rf ae : ℚ) (aeV : ℕ) (km : ℚ) : ℕ × ℚ :=
  match m with
  | .weighted =>
      -- ensemble_proba = w_rf*rf + w_ae*ae + w_km*km ; pred = (proba > 0.5)
      let p := w.rf * rf + w.ae * ae + w.km * km
      (if p > 1/2 then 1 else 0, p)
  | .majority =>
      -- votes = (rf > .5) + ae_pred + (km > .5) ; pred = votes >= 2 ; proba = votes/3
      let rfb : ℕ := if rf > 1/2 then 1 else 0
      let kmb : ℕ := if km > 1/2 then 1 else 0
      let votes := rfb + aeV + kmb
      (if votes ≥ 2 then 1 else 0, (votes : ℚ) / 3)
  | .unanimous =>
      -- pred = rf_binary & ae_binary & kmeans_binary ; proba = min of the three probas
      let rfb : ℕ := if rf > 1/2 then 1 else 0
      let kmb : ℕ := if km > 1/2 then 1 else 0
      ((rfb &&& aeV) &&& kmb, min rf (min ae km))


/-- Four-way zip used to run `combineRow` over the parallel adapter vectors. -/
def zipWith4 (f : α → β → γ → δ → ε) : List α → List β → List γ → List δ → List ε
  | a :: as, b :: bs, c :: cs, d :: ds => f a b c d :: zipWith4 f as bs cs ds
  | _, _, _, _ => []


/-- The combination step of `FraudDetectionEnsemble.predict`
(`ensemble_model.py` lines 176–202), given the three adapters' probability
vectors and the autoencoder's binary vote vector.  Returns
`(ensemble_pred, ensemble_proba)`. -/
def ensemblePredict (w : Weights) (m : VotingMethod)
    (rf_proba ae_proba : List ℚ) (ae_pred : List ℕ) (kmeans_proba : List ℚ) :
    List ℕ × List ℚ :=
  let rows := zipWith4 (combineRow w m) rf_proba ae_proba ae_pred kmeans_proba
  (rows.map (·.1), rows.map (·.2))


/-- `FraudDetectionEnsemble.predict` upstream of the combination
(`ensemble_model.py` lines 166–173): the autoencoder probabilities are the
min–max-normalised reconstruction errors; the other adapters' vectors are
taken as the inputs they are. -/
def ensemblePredictFull (w : Weights) (m : VotingMethod)
    (rf_proba ae_scores : List ℚ) (ae_pred : List ℕ) (kmeans_proba : List ℚ) :
    List ℕ × List ℚ :=
  ensemblePredict w m rf_proba (aeProbaOf ae_scores) ae_pred kmeans_proba


/-- `np.percentile(a, q)` with the default linear interpolation: on the
ascending sort `s` of `a`, the value at fractional position
`pos = q*(n-1)/100` is `s[i] + (pos - i)*(s[i+1] - s[i])` where `i = ⌊pos⌋`
(the last element when `i` is the last index).  numpy raises on an empty
array; we return `0` there and state theorems for nonempty inputs. -/
def percentileLinear (q : ℚ) (a : List ℚ) : ℚ :=
  let s := a.insertionSort (· ≤ ·)
  let pos : ℚ := q * ((s.length : ℚ) - 1) / 100
  let i : ℕ := (⌊pos⌋).toNat
  let g : ℚ := pos - (i : ℚ)
  match s[i]?, s[i+1]? with
  | some x, some y => x + g * (y - x)
  | some x, none => x
  | none, _ => 0


/-- The autoencoder model state relevant to prediction: the stored
reconstruction-error decision threshold (`self.threshold` in
`FraudDetectionAutoencoder`). -/
structure AeModel where
  threshold : ℚ
deriving DecidableEq, Repr


/-- The threshold-setting step of `FraudDetectionAutoencoder.train`
(`autoencoder_model.py` lines 248–252): given the per-row reconstruction
errors on the training set, store their 95th percentile as the threshold.
The reconstruction errors themselves are produced by the neural network,
whose training is outside this core (spec §1 non-goal); they enter here as
an explicit vector. -/
def aeTrain (reconstruction_errors : List ℚ) : AeModel :=
  ⟨percentileLinear 95 reconstruction_errors⟩


/-- The decision step of `FraudDetectionAutoencoder.predict`
(`autoencoder_model.py` lines 284–287): `(reconstruction_errors > self.threshold).astype(int)`,
comparing fresh errors against the stored threshold. -/
def aePredict (m : AeModel) (reconstruction_errors : List ℚ) : List ℕ :=
  reconstruction_errors.map (fun e => if e > m.threshold then 1 else 0)


/-- `np.unique` of the integer cluster labels: sorted distinct values. -/
def uniqueSorted (l : List ℕ) : List ℕ :=
  l.dedup.insertionSort (· ≤ ·)


/-- The per-cluster fraud-rate map of
`FraudDetectionKMeans.identify_fraud_clusters` (`kmeans_model.py` lines
335–340): for each distinct cluster id, the mean of the labels `y` over the
rows assigned to that cluster (`0` for an empty mask, per the source guard). -/
def clusterFraudRates (cluster_labels y : List ℕ) : List (ℕ × ℚ) :=
  (uniqueSorted cluster_labels).map (fun cluster_id =>
    let members := ((cluster_labels.zip y).filter (fun p => p.1 = cluster_id)).map (·.2)
    (cluster_id, if members.length = 0 then 0 else ((members.sum : ℚ) / (members.length : ℚ))))


/-- `FraudDetectionKMeans.identify_fraud_clusters` (`kmeans_model.py` lines
326–357): compute the fraud-rate map, take the `threshold_percentile`-th
percentile of the rates as threshold, and keep the clusters whose rate is
`>=` the threshold.  Returns `(fraud_clusters, cluster_fraud_rates)`. -/
def identifyFraudClusters (cluster_labels y : List ℕ) (threshold_percentile : ℚ) :
    List ℕ × List (ℕ × ℚ) :=
  let cluster_fraud_rates := clusterFraudRates cluster_labels y
  let fraud_rate_threshold := percentileLinear threshold_percentile (cluster_fraud_rates.map (·.2))
  ((cluster_fraud_rates.filter (fun p => p.2 ≥ fraud_rate_threshold)).map (·.1),
   cluster_fraud_rates)


/-- The probability construction of
`FraudDetectionKMeans.predict_fraud_probability` (`kmeans_model.py` lines
398–407): each row gets the stored fraud rate of its assigned cluster, `0`
when the cluster id is missing from the stored rate map. -/
def kmProbaOf (cluster_fraud_rates : List (ℕ × ℚ)) (cluster_labels : List ℕ) : List ℚ :=
  cluster_labels.map (fun cluster_id =>
    match cluster_fraud_rates.lookup cluster_id with
    | some rate => rate
    | none => 0)


/-- `FraudDetectionKMeans.predict_fraud_probability` (`kmeans_model.py` lines
391–407): raises `ValueError` (here: `none`) when `self.fraud_clusters` is
empty, otherwise returns the per-row cluster fraud rates. -/
def predictFraudProbability (fraud_clusters : List ℕ)
    (cluster_fraud_rates : List (ℕ × ℚ)) (cluster_labels : List ℕ) : Option (List ℚ) :=
  if fraud_clusters = [] then none
  else some (kmProbaOf cluster_fraud_rates cluster_labels)


/-- `classification_report(y_val, predictions, output_dict=True)['1']['f1-score']`
(`ensemble_model.py` line 149).  sklearn reports a class iff its label occurs
in `y_val` or in `predictions`; a missing `'1'` key is a `KeyError`, hence
`none`.  With sklearn's `zero_division` default, `0/0` precision, recall and
F1 are scored `0`. -/
def f1Pos (y_val predictions : List ℕ) : Option ℚ :=
  if 1 ∈ y_val ∨ 1 ∈ predictions then
    let pairs := y_val.zip predictions
    let tp : ℕ := (pairs.filter (fun p => p.1 = 1 ∧ p.2 = 1)).length
    let fp : ℕ := (pairs.filter (fun p => p.1 ≠ 1 ∧ p.2 = 1)).length
    let fn : ℕ := (pairs.filter (fun p => p.1 = 1 ∧ p.2 ≠ 1)).length
    let precision : ℚ := if tp + fp = 0 then 0 else (tp : ℚ) / ((tp : ℚ) + (fp : ℚ))
    let recallQ : ℚ := if tp + fn = 0 then 0 else (tp : ℚ) / ((tp : ℚ) + (fn : ℚ))
    some (if precision + recallQ = 0 then 0 else 2 * precision * recallQ / (precision + recallQ))
  else none


/-- `np.linspace(start, stop, num)` under the exact-rational convention:
`start + i*(stop-start)/(num-1)`. -/
def linspace (start stop : ℚ) (num : ℕ) : List ℚ :=
  (List.range num).map (fun i => start + (i : ℚ) * (stop - start) / ((num : ℚ) - 1))


/-- The candidate grid of `FraudDetectionEnsemble._optimize_weights`
(`ensemble_model.py` lines 134–140): `rf_w` over `linspace(0.2, 0.8, 5)`,
`ae_w` over `linspace(0.1, 0.6, 5)`, `kmeans_w = 1 - rf_w - ae_w` kept only
when `0.1 <= kmeans_w <= 0.6`. -/
def weightCandidates : List Weights :=
  (linspace (1/5) (4/5) 5).flatMap (fun rf_w =>
    (linspace (1/10) (3/5) 5).filterMap (fun ae_w =>
      let kmeans_w := 1 - rf_w - ae_w
      if 1/10 ≤ kmeans_w ∧ kmeans_w ≤ 3/5 then some ⟨rf_w, ae_w, kmeans_w⟩ else none))


/-- One iteration of the `_optimize_weights` loop (`ensemble_model.py` lines
142–153): set the candidate weights, predict on the validation set using the
ensemble's current voting method, score by the positive-class F1 of the
report (a missing `'1'` key propagates as an exception), and keep the
candidate only on a strict improvement over `best_f1`. -/
def optimizeStep (m : VotingMethod) (rfP aeScores : List ℚ) (aeV : List ℕ) (kmP : List ℚ)
    (y_val : List ℕ) (acc : ℚ × Weights) (w : Weights) : Option (ℚ × Weights) :=
  let predictions := (ensemblePredictFull w m rfP aeScores aeV kmP).1
  (f1Pos y_val predictions).map (fun f1 => if f1 > acc.1 then (f1, w) else acc)


/-- `FraudDetectionEnsemble._optimize_weights` (`ensemble_model.py` lines
127–156): fold the candidate list (truncated to `n_trials = 50`) starting
from `best_f1 = 0` and `best_weights = self.weights.copy()`; the final
`best_weights` becomes the stored weights.  `none` is an uncaught exception
escaping the call. -/
def optimizeWeights (w0 : Weights) (m : VotingMethod) (rfP aeScores : List ℚ)
    (aeV : List ℕ) (kmP : List ℚ) (y_val : List ℕ) : Option Weights :=
  ((weightCandidates.take 50).foldlM (optimizeStep m rfP aeScores aeV kmP y_val) (0, w0)).map (·.2)


/-- The validation F1 a candidate triple earns in `_optimize_weights`
(defaulting an sklearn `KeyError` to `0`; theorems about the optimizer that
use this carry a hypothesis ruling the `KeyError` out). -/
def candidateF1 (m : VotingMethod) (rfP aeScores : List ℚ) (aeV : List ℕ) (kmP : List ℚ)
    (y_val : List ℕ) (w : Weights) : ℚ :=
  (f1Pos y_val ((ensemblePredictFull w m rfP aeScores aeV kmP).1)).getD 0


/-- Modelled from the spec: the maximum score over a candidate list (the
baseline `0` mirrors the loop's `best_f1 = 0` initialisation; F1 scores are
never negative). -/
def maxScore (score : Weights → ℚ) (l : List Weights) : ℚ :=
  l.foldl (fun b w => max b (score w)) 0


/-- Modelled from the spec: "retain the triple with the maximum score
(first-seen wins ties)" — the first candidate in generation order whose
score equals the maximum. -/
def firstArgmax (score : Weights → ℚ) (l : List Weights) : Option Weights :=
  l.find? (fun w => decide (score w = maxScore score l))


/-- A pandas column: name, numeric dtype flag (`select_dtypes(include=[np.number])`),
and cell values.  Non-numeric cells (id codes, locations) are also carried
as `ℚ` values; only equality/counting is ever applied to them, matching the
source. -/
structure Col where
  name : String
  numeric : Bool
  vals : List ℚ
deriving DecidableEq, Repr


/-- A pandas DataFrame: an ordered list of named columns. -/
abbrev Table := List Col


/-- `name in frame.columns`. -/
def hasCol (t : Table) (n : String) : Bool :=
  t.any (fun c => c.name == n)


/-- Reading `frame[name]`; `none` is a Python `KeyError`. -/
def getColQ (t : Table) (n : String) : Option (List ℚ) :=
  (t.find? (fun c => c.name == n)).map (·.vals)


/-- Reading `frame[name]` where presence is already guarded. -/
def colD (t : Table) (n : String) : List ℚ :=
  (getColQ t n).getD []


/-- Column assignment `frame[name] = values`: overwrite in place when the
column exists (pandas keeps its position), append otherwise. -/
def setColB (t : Table) (n : String) (numeric : Bool) (v : List ℚ) : Table :=
  if hasCol t n then t.map (fun c => if c.name == n then ⟨n, numeric, v⟩ else c)
  else t ++ [⟨n, numeric, v⟩]


/-- Column assignment with a numeric result (every derived feature below). -/
def setColQ (t : Table) (n : String) (v : List ℚ) : Table :=
  setColB t n true v


/-- Number of DataFrame rows (frames are rectangular). -/
def nRows (t : Table) : ℕ :=
  (t.head?.map (fun c => c.vals.length)).getD 0


/-- Mean of a pandas Series (`0` for the empty series, never reached under
the guards below). -/
def meanQ (l : List ℚ) : ℚ :=
  l.sum / (l.length : ℚ)


/-- Sample variance with `ddof = 1` as used by `Series.std()`; a series of
fewer than two entries has `NaN` std, and every comparison with `NaN` is
false, which the value `0` reproduces under the `std > 0` guards below. -/
def sampleVar (l : List ℚ) : ℚ :=
  if l.length < 2 then 0
  else (l.map (fun x => (x - meanQ l) * (x - meanQ l))).sum / ((l.length : ℚ) - 1)


/-- `Series.std()` = √(sample variance).  `Rat.sqrt` agrees with the real
square root exactly on perfect-square rationals (all variances appearing in
concrete theorem inputs below are perfect squares), and `Rat.sqrt v > 0 ↔ v > 0`
for `v ≥ 0`, so the source guard `std() > 0` is embedded exactly. -/
def pandasStd (l : List ℚ) : ℚ :=
  Rat.sqrt (sampleVar l)


/-- `Series.rank(pct=True)` with the default `average` tie method: the
average 1-based rank of a value (number of strictly smaller entries plus
`(ties + 1)/2`), divided by the series length. -/
def rankPct (l : List ℚ) : List ℚ :=
  l.map (fun v =>
    (((l.countP (fun x => decide (x < v))) : ℚ) +
      (((l.countP (fun x => decide (x = v))) : ℚ) + 1) / 2) / (l.length : ℚ))


/-- One iteration of the trailing statistical loop of
`FraudDetectionKMeans.prepare_features` (`kmeans_model.py` lines 151–157):
for a numeric column other than `is_fraud` with positive std, assign a
`{col}_zscore` and a `{col}_percentile` column (reading the current frame,
as the Python loop does). -/
def kmStatStep (features : Table) (col : String) : Table :=
  let vals := colD features col
  if col ≠ "is_fraud" ∧ 0 < pandasStd vals then
    setColQ
      (setColQ features (col ++ "_zscore")
        (vals.map (fun x => (x - meanQ vals) / pandasStd vals)))
      (col ++ "_percentile") (rankPct vals)
  else features


/-- The trailing statistical loop of `FraudDetectionKMeans.prepare_features`
(`kmeans_model.py` lines 149–157): snapshot the numeric column names before
the loop, then run `kmStatStep` over them. -/
def kmStatLoop (t : Table) : Table :=
  let numeric_cols := (t.filter (fun c => c.numeric)).map (fun c => c.name)
  numeric_cols.foldl kmStatStep t


/-- `FraudDetectionKMeans.prepare_features` (`kmeans_model.py` lines 37–159).
`log1p` abstracts `np.log1p` (not `ℚ`-representable; no stated property
depends on its values).  The branches guarded on `claim_date`,
`provider_id` and `patient_id` perform datetime decomposition and pandas
groupby-agg/merge that are outside this embedding; on tables containing
those columns the embedding returns `none`, and every theorem below stays
inside the embedded domain.  All other branches are embedded in source
order. -/
def kmeansPrepareFeatures (log1p : ℚ → ℚ) (df : Table) : Option Table :=
  let features := df
  -- temporal features and time-based clustering features (datetime ops)
  if hasCol features "claim_date" then none else
  -- financial features
  let features :=
    if hasCol features "claim_amount" then
      let amounts := colD features "claim_amount"
      setColQ (setColQ features "claim_amount_log" (amounts.map log1p))
        "claim_amount_percentile" (rankPct amounts)
    else features
  -- provider / patient behaviour features (groupby-agg + merge)
  if hasCol features "provider_id" then none else
  if hasCol features "patient_id" then none else
  -- diagnosis patterns
  let features :=
    if hasCol features "diagnosis_code" then
      let diag := colD features "diagnosis_code"
      let features := setColQ features "diagnosis_frequency"
        (diag.map (fun v => ((diag.countP (fun x => decide (x = v))) : ℚ)))
      setColQ features "diagnosis_rarity"
        ((colD features "diagnosis_frequency").map (fun f => 1 / (f + 1)))
    else features
  -- procedure patterns
  let features :=
    if hasCol features "procedure_code" then
      let proc := colD features "procedure_code"
      let features := setColQ features "procedure_frequency"
        (proc.map (fun v => ((proc.countP (fun x => decide (x = v))) : ℚ)))
      if hasCol features "claim_amount" then
        let amounts := colD features "claim_amount"
        let avgCost := proc.map (fun code =>
          meanQ (((proc.zip amounts).filter (fun p => p.1 = code)).map (·.2)))
        let features := setColQ features "procedure_avg_cost" avgCost
        setColQ features "amount_deviation_from_procedure_avg"
          (List.zipWith (fun amt avg => |amt - avg| / (avg + 1 / 1000000)) amounts avgCost)
      else features
    else features
  -- geographic patterns
  let features :=
    if hasCol features "provider_location" && hasCol features "patient_location" then
      let pl := colD features "provider_location"
      let pt := colD features "patient_location"
      let features := setColQ features "location_mismatch"
        (List.zipWith (fun a b => if a ≠ b then 1 else 0) pl pt)
      let pairs := pl.zip pt
      let features := setColQ features "location_combination_frequency"
        (pairs.map (fun pr => ((pairs.countP (fun x => decide (x = pr))) : ℚ)))
      setColQ features "location_combination_rarity"
        ((colD features "location_combination_frequency").map (fun f => 1 / (f + 1)))
    else features
  -- network analysis features guard on provider_id and patient_id, both
  -- already excluded above
  some (kmStatLoop features)


/-- Financial branch of `FraudDetectionRandomForest.prepare_features`
(`random_forest_model.py` lines 59–64): `claim_amount_log` and
`is_high_amount` (amount above its 0.95 quantile), each added only if not
already present. -/
def rfFinancial (log1p : ℚ → ℚ) (features : Table) : Table :=
  if hasCol features "claim_amount" then
    let amounts := colD features "claim_amount"
    let features :=
      if hasCol features "claim_amount_log" then features
      else setColQ features "claim_amount_log" (amounts.map log1p)
    if hasCol features "is_high_amount" then features
    else setColQ features "is_high_amount"
      (amounts.map (fun a => if a > percentileLinear 95 amounts then 1 else 0))
  else features


/-- Provider branch of `FraudDetectionRandomForest.prepare_features`
(`random_forest_model.py` lines 66–84).  When the aggregate columns are
missing the source runs a pandas groupby-agg + merge, outside this
embedding (`none`); otherwise the two guarded risk indicators are derived
from the existing aggregate columns (a missing aggregate column read is a
Python `KeyError`, hence `none`). -/
def rfProvider (features : Table) : Option Table :=
  if ¬ hasCol features "provider_id" then some features else
  if ¬ (hasCol features "provider_claim_count" && hasCol features "provider_unique_patients")
  then none else do
  let f1 ←
    if hasCol features "provider_claims_per_patient" then some features else do
      let cnt ← getColQ features "provider_claim_count"
      let uniq ← getColQ features "provider_unique_patients"
      some (setColQ features "provider_claims_per_patient"
        (List.zipWith (fun a b => a / (b + 1)) cnt uniq))
  if hasCol f1 "provider_amount_variation" then some f1 else do
    let s ← getColQ f1 "provider_amount_std"
    let a ← getColQ f1 "provider_avg_amount"
    some (setColQ f1 "provider_amount_variation"
      (List.zipWith (fun x y => x / (y + 1)) s a))


/-- Patient branch of `FraudDetectionRandomForest.prepare_features`
(`random_forest_model.py` lines 86–101), analogous to the provider branch. -/
def rfPatient (features : Table) : Option Table :=
  if ¬ hasCol features "patient_id" then some features else
  if ¬ (hasCol features "patient_claim_count" && hasCol features "patient_unique_providers")
  then none else
  if hasCol features "patient_provider_diversity" then some features else do
    let up ← getColQ features "patient_unique_providers"
    let cc ← getColQ features "patient_claim_count"
    some (setColQ features "patient_provider_diversity"
      (List.zipWith (fun a b => a / (b + 1)) up cc))


/-- Diagnosis branch (`random_forest_model.py` lines 104–108).
`isHighRiskDiag` abstracts `code.str[:3].isin(high_risk_diagnoses)` — a
Boolean function of the code value; no stated property depends on it. -/
def rfDiagnosis (isHighRiskDiag : ℚ → Bool) (features : Table) : Table :=
  if hasCol features "diagnosis_code" && ¬ hasCol features "is_high_risk_diagnosis" then
    setColQ features "is_high_risk_diagnosis"
      ((colD features "diagnosis_code").map (fun v => if isHighRiskDiag v then 1 else 0))
  else features


/-- Procedure branch (`random_forest_model.py` lines 110–114).
`isHighValueProc` abstracts `code.isin(high_value_procedures)`. -/
def rfProcedure (isHighValueProc : ℚ → Bool) (features : Table) : Table :=
  if hasCol features "procedure_code" && ¬ hasCol features "is_high_value_procedure" then
    setColQ features "is_high_value_procedure"
      ((colD features "procedure_code").map (fun v => if isHighValueProc v then 1 else 0))
  else features


/-- Geographic branch (`random_forest_model.py` lines 117–119). -/
def rfLocation (features : Table) : Table :=
  if hasCol features "provider_location" && hasCol features "patient_location"
      && ¬ hasCol features "location_mismatch" then
    setColQ features "location_mismatch"
      (List.zipWith (fun a b => if a ≠ b then 1 else 0)
        (colD features "provider_location") (colD features "patient_location"))
  else features


/-- The `available_cols` of the duplicate-detection branch
(`random_forest_model.py` lines 122–123): the duplicate-key columns present
in the frame. -/
def availableCols (features : Table) : List String :=
  ["patient_id", "provider_id", "diagnosis_code", "procedure_code"].filter
    (fun c => hasCol features c)


/-- Duplicate-detection branch (`random_forest_model.py` lines 121–126):
`frame.duplicated(subset=available_cols, keep=False)` marks every row whose
key tuple occurs at least twice. -/
def rfDuplicate (features : Table) : Table :=
  if 2 ≤ (availableCols features).length ∧ ¬ hasCol features "duplicate_claim_indicator" then
    let n := nRows features
    let keyRow := fun i => (availableCols features).map (fun c => (colD features c).getD i 0)
    setColQ features "duplicate_claim_indicator"
      ((List.range n).map (fun i =>
        if 2 ≤ (List.range n).countP (fun j => decide (keyRow j = keyRow i)) then 1 else 0))
  else features


/-- `FraudDetectionRandomForest.prepare_features` (`random_forest_model.py`
lines 36–129), composing the branches in source order.  The temporal branch
guards on `claim_date` and performs datetime decomposition outside this
embedding, so tables containing `claim_date` map to `none`; theorems below
stay inside the embedded domain. -/
def rfPrepareFeatures (log1p : ℚ → ℚ) (isHighRiskDiag isHighValueProc : ℚ → Bool)
    (df : Table) : Option Table :=
  if hasCol df "claim_date" then none else do
  let features := rfFinancial log1p df
  let features ← rfProvider features
  let features ← rfPatient features
  let features := rfDiagnosis isHighRiskDiag features
  let features := rfProcedure isHighValueProc features
  let features := rfLocation features
  some (rfDuplicate features)


/-- A one-column numeric frame: the simplest input on which the cluster
adapter's feature engineering is observable end to end. -/
def kmT0 : Table := [⟨"a", true, [1, 2, 3]⟩]


/-- `prepare_features` applied once to `kmT0`: the column and its z-score
and percentile columns. -/
def kmOnce : Table :=
  [⟨"a", true, [1, 2, 3]⟩, ⟨"a_zscore", true, [-1, 0, 1]⟩,
   ⟨"a_percentile", true, [1/3, 2/3, 1]⟩]


/-- `prepare_features` applied to its own output: the statistical loop
re-derives z-scores and percentiles of the previously derived columns. -/
def kmTwice : Table :=
  [⟨"a", true, [1, 2, 3]⟩, ⟨"a_zscore", true, [-1, 0, 1]⟩,
   ⟨"a_percentile", true, [1/3, 2/3, 1]⟩,
   ⟨"a_zscore_zscore", true, [-1, 0, 1]⟩, ⟨"a_zscore_percentile", true, [1/3, 2/3, 1]⟩,
   ⟨"a_percentile_zscore", true, [-1, 0, 1]⟩,
   ⟨"a_percentile_percentile", true, [1/3, 2/3, 1]⟩]


/-- Intermediate frame inside the second application's statistical loop. -/
def kmMid : Table :=
  [⟨"a", true, [1, 2, 3]⟩, ⟨"a_zscore", true, [-1, 0, 1]⟩,
   ⟨"a_percentile", true, [1/3, 2/3, 1]⟩,
   ⟨"a_zscore_zscore", true, [-1, 0, 1]⟩, ⟨"a_zscore_percentile", true, [1/3, 2/3, 1]⟩]


/-- The state `prepare_features` leaves a frame in: every derived column
whose source columns are present has been materialised (and the frame is
date-free, the embedded domain). -/
def rfStable (t : Table) : Prop :=
  hasCol t "claim_date" = false
  ∧ (hasCol t "claim_amount" = true →
      hasCol t "claim_amount_log" = true ∧ hasCol t "is_high_amount" = true)
  ∧ (hasCol t "provider_id" = true →
      hasCol t "provider_claim_count" = true ∧ hasCol t "provider_unique_patients" = true
      ∧ hasCol t "provider_claims_per_patient" = true
      ∧ hasCol t "provider_amount_variation" = true)
  ∧ (hasCol t "patient_id" = true →
      hasCol t "patient_claim_count" = true ∧ hasCol t "patient_unique_providers" = true
      ∧ hasCol t "patient_provider_diversity" = true)
  ∧ (hasCol t "diagnosis_code" = true → hasCol t "is_high_risk_diagnosis" = true)
  ∧ (hasCol t "procedure_code" = true → hasCol t "is_high_value_procedure" = true)
  ∧ (hasCol t "provider_location" = true → hasCol t "patient_location" = true →
      hasCol t "location_mismatch" = true)
  ∧ (2 ≤ (availableCols t).length → hasCol t "duplicate_claim_indicator" = true)


/-- A one-column financial frame for exercising the classifier adapter's
feature engineering. -/
def rfT1 : Table := [⟨"claim_amount", true, [1, 2, 3]⟩]


/-- `rfT1` after one application of the classifier's `prepare_features`. -/
def rfU1 : Table :=
  [⟨"claim_amount", true, [1, 2, 3]⟩, ⟨"claim_amount_log", true, [1, 2, 3]⟩,
   ⟨"is_high_amount", true, [0, 0, 1]⟩]


/-- The pure accumulator step of the optimizer loop once the F1 score is
known: keep the candidate only on a strict improvement. -/
def scoreFoldStep (score : Weights → ℚ) (b : ℚ × Weights) (w : Weights) : ℚ × Weights :=
  if score w > b.1 then (score w, w) else b


/-- Helper: `Rat.sqrt 1 = 1` (`√1` is exact). -/
theorem ratSqrt_one : Rat.sqrt 1 = 1 := by
  have h : (1 : ℚ) = 1 * 1 := by norm_num
  rw [h, Rat.sqrt_eq]; norm_num


/-- Helper: `Rat.sqrt (1/9) = 1/3` (`√(1/9)` is exact). -/
theorem ratSqrt_ninth : Rat.sqrt (1/9) = 1/3 := by
  have h : (1/9 : ℚ) = (1/3) * (1/3) := by norm_num
  rw [h, Rat.sqrt_eq]; norm_num


theorem kmStep_T0_a : kmStatStep kmT0 "a" = kmOnce := by
  have hv : colD kmT0 "a" = [1, 2, 3] := by simp [colD, getColQ, kmT0]
  have hs : pandasStd [1, 2, 3] = 1 := by norm_num [pandasStd, sampleVar, meanQ]
  have hm : meanQ [1, 2, 3] = 2 := by norm_num [meanQ]
  have hr : rankPct [1, 2, 3] = [1/3, 2/3, 1] := by
    norm_num [rankPct, List.countP, List.countP.go]
  simp only [kmStatStep, hv, hs, hm, hr]
  norm_num [kmT0, kmOnce, setColQ, setColB, hasCol]
  simp


theorem kmStep_once_a : kmStatStep kmOnce "a" = kmOnce := by
  have hv : colD kmOnce "a" = [1, 2, 3] := by simp [colD, getColQ, kmOnce]
  have hs : pandasStd [1, 2, 3] = 1 := by norm_num [pandasStd, sampleVar, meanQ]
  have hm : meanQ [1, 2, 3] = 2 := by norm_num [meanQ]
  have hr : rankPct [1, 2, 3] = [1/3, 2/3, 1] := by
    norm_num [rankPct, List.countP, List.countP.go]
  simp only [kmStatStep, hv, hs, hm, hr]
  norm_num [kmOnce, setColQ, setColB, hasCol]
  simp


theorem kmStep_once_z : kmStatStep kmOnce "a_zscore" = kmMid := by
  have hv : colD kmOnce "a_zscore" = [-1, 0, 1] := by simp [colD, getColQ, kmOnce]
  have hs : pandasStd [-1, 0, 1] = 1 := by norm_num [pandasStd, sampleVar, meanQ]
  have hm : meanQ [-1, 0, 1] = 0 := by norm_num [meanQ]
  have hr : rankPct [-1, 0, 1] = [1/3, 2/3, 1] := by
    norm_num [rankPct, List.countP, List.countP.go]
  simp only [kmStatStep, hv, hs, hm, hr]
  norm_num [kmOnce, kmMid, setColQ, setColB, hasCol]
  simp


theorem kmStep_mid_p : kmStatStep kmMid "a_percentile" = kmTwice := by
  have hv : colD kmMid "a_percentile" = [1/3, 2/3, 1] := by simp [colD, getColQ, kmMid]
  have hs : pandasStd [1/3, 2/3, 1] = 1/3 := by
    have h9 : sampleVar [1/3, 2/3, 1] = 1/9 := by norm_num [sampleVar, meanQ]
    rw [pandasStd, h9, ratSqrt_ninth]
  have hm : meanQ [1/3, 2/3, 1] = 2/3 := by norm_num [meanQ]
  have hr : rankPct [1/3, 2/3, 1] = [1/3, 2/3, 1] := by
    norm_num [rankPct, List.countP, List.countP.go]
  simp only [kmStatStep, hv, hs, hm, hr]
  norm_num [kmMid, kmTwice, setColQ, setColB, hasCol]
  simp


theorem kmPrep_T0 : kmeansPrepareFeatures id kmT0 = some kmOnce := by
  simp only [kmeansPrepareFeatures, kmStatLoop]
  simp only [show hasCol kmT0 "claim_date" = false from rfl,
    show hasCol kmT0 "claim_amount" = false from rfl,
    show hasCol kmT0 "provider_id" = false from rfl,
    show hasCol kmT0 "patient_id" = false from rfl,
    show hasCol kmT0 "diagnosis_code" = false from rfl,
    show hasCol kmT0 "procedure_code" = false from rfl,
    show hasCol kmT0 "provider_location" = false from rfl,
    show ((kmT0.filter (fun c => c.numeric)).map (fun c => c.name)) = ["a"] from rfl]
  simp only [Bool.false_eq_true, if_false, Bool.false_and, List.foldl]
  show some (kmStatStep kmT0 "a") = some kmOnce
  rw [kmStep_T0_a]


theorem kmPrep_once : kmeansPrepareFeatures id kmOnce = some kmTwice := by
  simp only [kmeansPrepareFeatures, kmStatLoop]
  simp only [show hasCol kmOnce "claim_date" = false from rfl,
    show hasCol kmOnce "claim_amount" = false from rfl,
    show hasCol kmOnce "provider_id" = false from rfl,
    show hasCol kmOnce "patient_id" = false from rfl,
    show hasCol kmOnce "diagnosis_code" = false from rfl,
    show hasCol kmOnce "procedure_code" = false from rfl,
    show hasCol kmOnce "provider_location" = false from rfl,
    show ((kmOnce.filter (fun c => c.numeric)).map (fun c => c.name))
        = ["a", "a_zscore", "a_percentile"] from rfl]
  simp only [Bool.false_eq_true, if_false, Bool.false_and, List.foldl]
  show some (kmStatStep (kmStatStep (kmStatStep kmOnce "a") "a_zscore") "a_percentile")
      = some kmTwice
  rw [kmStep_once_a, kmStep_once_z, kmStep_mid_p]


/-- Helper: overwriting a column in place preserves the frame's name set. -/
theorem any_name_map_overwrite (t : Table) (n : String) (b : Bool) (v : List ℚ) (m : String) :
    ((t.map (fun c => if c.name == n then ⟨n, b, v⟩ else c)).any (fun c => c.name == m))
      = t.any (fun c => c.name == m) := by
  induction t with
  | nil => rfl
  | cons c t ih =>
      simp only [List.map_cons, List.any_cons, ih]
      by_cases h : (c.name == n) = true
      · have hcn : c.name = n := eq_of_beq h
        simp [h, hcn]
      · simp [h]


/-- Helper: column membership after an assignment. -/
theorem hasCol_setColB (t : Table) (n : String) (b : Bool) (v : List ℚ) (m : String) :
    hasCol (setColB t n b v) m = (hasCol t m || (n == m)) := by
  unfold setColB
  by_cases h : hasCol t n = true
  · simp only [h, if_true]
    unfold hasCol
    rw [any_name_map_overwrite]
    by_cases hm : (n == m) = true
    · have hnm : n = m := eq_of_beq hm
      subst hnm
      unfold hasCol at h
      simp [h]
    · simp [hm]
  · simp only [h, if_false, Bool.false_eq_true]
    unfold hasCol
    simp [List.any_append]


/-- Helper: column membership after a numeric assignment. -/
theorem hasCol_setColQ (t : Table) (n : String) (v : List ℚ) (m : String) :
    hasCol (setColQ t n v) m = (hasCol t m || (n == m)) :=
  hasCol_setColB t n true v m


/-- Helper: a present column can be read. -/
theorem getColQ_isSome_of_hasCol (t : Table) (n : String) (h : hasCol t n = true) :
    ∃ l, getColQ t n = some l := by
  unfold hasCol at h
  unfold getColQ
  rcases List.any_eq_true.mp h with ⟨c, hc, hcn⟩
  cases hf : t.find? (fun c => c.name == n) with
  | none => exact absurd hcn ((List.find?_eq_none.mp hf) c hc)
  | some c2 => exact ⟨c2.vals, rfl⟩


/-- Column membership after the RF financial branch: only `claim_amount_log`
and `is_high_amount` can be added, and only when `claim_amount` is present. -/
theorem rfFinancial_hasCol (log1p : ℚ → ℚ) (t : Table) (m : String) :
    hasCol (rfFinancial log1p t) m
      = (hasCol t m
         || (hasCol t "claim_amount"
             && (("claim_amount_log" == m) || ("is_high_amount" == m)))) := by
  by_cases hL : "claim_amount_log" = m
  · subst hL
    simp only [rfFinancial]
    split_ifs <;> simp_all [hasCol_setColQ]
  · by_cases hH : "is_high_amount" = m
    · subst hH
      simp only [rfFinancial]
      split_ifs <;> simp_all [hasCol_setColQ]
    · have hL2 : ("claim_amount_log" == m) = false := beq_eq_false_iff_ne.mpr hL
      have hH2 : ("is_high_amount" == m) = false := beq_eq_false_iff_ne.mpr hH
      simp only [rfFinancial]
      split_ifs <;> simp [hasCol_setColQ, hL2, hH2, Bool.or_assoc]


/-- Column membership after the RF diagnosis branch. -/
theorem rfDiagnosis_hasCol (d : ℚ → Bool) (t : Table) (m : String) :
    hasCol (rfDiagnosis d t) m
      = (hasCol t m || (hasCol t "diagnosis_code" && ("is_high_risk_diagnosis" == m))) := by
  by_cases hR : "is_high_risk_diagnosis" = m
  · subst hR
    simp only [rfDiagnosis]
    split_ifs <;> simp_all [hasCol_setColQ]
  · have hR2 : ("is_high_risk_diagnosis" == m) = false := beq_eq_false_iff_ne.mpr hR
    simp only [rfDiagnosis]
    split_ifs <;> simp [hasCol_setColQ, hR2, Bool.or_assoc]


/-- Column membership after the RF procedure branch. -/
theorem rfProcedure_hasCol (p : ℚ → Bool) (t : Table) (m : String) :
    hasCol (rfProcedure p t) m
      = (hasCol t m || (hasCol t "procedure_code" && ("is_high_value_procedure" == m))) := by
  by_cases hR : "is_high_value_procedure" = m
  · subst hR
    simp only [rfProcedure]
    split_ifs <;> simp_all [hasCol_setColQ]
  · have hR2 : ("is_high_value_procedure" == m) = false := beq_eq_false_iff_ne.mpr hR
    simp only [rfProcedure]
    split_ifs <;> simp [hasCol_setColQ, hR2, Bool.or_assoc]


/-- Column membership after the RF geographic branch. -/
theorem rfLocation_hasCol (t : Table) (m : String) :
    hasCol (rfLocation t) m
      = (hasCol t m
         || ((hasCol t "provider_location" && hasCol t "patient_location")
             && ("location_mismatch" == m))) := by
  by_cases hR : "location_mismatch" = m
  · subst hR
    simp only [rfLocation]
    split_ifs <;> simp_all [hasCol_setColQ]
  · have hR2 : ("location_mismatch" == m) = false := beq_eq_false_iff_ne.mpr hR
    simp only [rfLocation]
    split_ifs <;> simp [hasCol_setColQ, hR2, Bool.or_assoc]


/-- Column membership after the RF duplicate branch. -/
theorem rfDuplicate_hasCol (t : Table) (m : String) :
    hasCol (rfDuplicate t) m
      = (hasCol t m
         || (decide (2 ≤ (availableCols t).length) && ("duplicate_claim_indicator" == m))) := by
  by_cases hR : "duplicate_claim_indicator" = m
  · subst hR
    simp only [rfDuplicate]
    split_ifs <;> simp_all [hasCol_setColQ]
  · have hR2 : ("duplicate_claim_indicator" == m) = false := beq_eq_false_iff_ne.mpr hR
    simp only [rfDuplicate]
    split_ifs <;> simp [hasCol_setColQ, hR2, Bool.or_assoc]



theorem hasCol_of_eq (t : Table) {n m : String} (h : hasCol t n = true) (e : n = m) :
    hasCol t m = true := e ▸ h


theorem rfProvider_spec (t u : Table) (h : rfProvider t = some u) :
    (∀ m, hasCol u m = true ↔
      (hasCol t m = true
       ∨ (hasCol t "provider_id" = true
          ∧ ("provider_claims_per_patient" = m ∨ "provider_amount_variation" = m))))
    ∧ (hasCol t "provider_id" = true →
        hasCol t "provider_claim_count" = true ∧ hasCol t "provider_unique_patients" = true) := by
  unfold rfProvider at h
  split_ifs at h with h1 h2 h3
  -- provider present, aggregates present, provider_claims_per_patient present
  · have hstats : hasCol t "provider_claim_count" = true
        ∧ hasCol t "provider_unique_patients" = true := by
      constructor <;> simp_all
    simp only [Option.bind_eq_bind, Option.some_bind] at h
    split_ifs at h with h4
    · obtain rfl : t = u := by simpa using h
      refine ⟨fun m => ?_, fun _ => hstats⟩
      constructor
      · exact fun hm => Or.inl hm
      · rintro (hm | ⟨-, (rfl | rfl)⟩)
        · exact hm
        · exact h3
        · exact h4
    · rcases hs : getColQ t "provider_amount_std" with - | s
      · rw [hs] at h; simp at h
      · rcases ha : getColQ t "provider_avg_amount" with - | a
        · rw [hs, ha] at h; simp at h
        · rw [hs, ha] at h
          simp only [Option.bind_eq_bind, Option.some_bind] at h
          obtain rfl : setColQ t "provider_amount_variation"
              (List.zipWith (fun x y => x / (y + 1)) s a) = u := by simpa using h
          refine ⟨fun m => ?_, fun _ => hstats⟩
          rw [hasCol_setColQ]
          constructor
          · intro hm
            rcases (Bool.or_eq_true _ _).mp hm with hm | hm
            · exact Or.inl hm
            · exact Or.inr ⟨h1, Or.inr (eq_of_beq hm)⟩
          · rintro (hm | ⟨-, (rfl | rfl)⟩)
            · simp [hm]
            · simp [h3]
            · simp
  -- provider present, aggregates present, provider_claims_per_patient assigned
  · have hstats : hasCol t "provider_claim_count" = true
        ∧ hasCol t "provider_unique_patients" = true := by
      constructor <;> simp_all
    rcases hc : getColQ t "provider_claim_count" with - | cnt
    · rw [hc] at h; simp at h
    · rcases hun : getColQ t "provider_unique_patients" with - | uniq
      · rw [hc, hun] at h; simp at h
      · rw [hc, hun] at h
        simp only [Option.bind_eq_bind, Option.some_bind] at h
        split_ifs at h with h4
        · obtain rfl : setColQ t "provider_claims_per_patient"
              (List.zipWith (fun a b => a / (b + 1)) cnt uniq) = u := by simpa using h
          refine ⟨fun m => ?_, fun _ => hstats⟩
          rw [hasCol_setColQ]
          constructor
          · intro hm
            rcases (Bool.or_eq_true _ _).mp hm with hm | hm
            · exact Or.inl hm
            · exact Or.inr ⟨h1, Or.inl (eq_of_beq hm)⟩
          · rintro (hm | ⟨-, (rfl | rfl)⟩)
            · simp [hm]
            · simp
            · rw [hasCol_setColQ] at h4
              exact h4
        · rcases hs : getColQ (setColQ t "provider_claims_per_patient"
              (List.zipWith (fun a b => a / (b + 1)) cnt uniq)) "provider_amount_std" with - | s
          · rw [hs] at h; simp at h
          · rcases ha : getColQ (setColQ t "provider_claims_per_patient"
                (List.zipWith (fun a b => a / (b + 1)) cnt uniq)) "provider_avg_amount" with - | a
            · rw [hs, ha] at h; simp at h
            · rw [hs, ha] at h
              simp only [Option.bind_eq_bind, Option.some_bind] at h
              obtain rfl : setColQ (setColQ t "provider_claims_per_patient"
                    (List.zipWith (fun a b => a / (b + 1)) cnt uniq)) "provider_amount_variation"
                  (List.zipWith (fun x y => x / (y + 1)) s a) = u := by simpa using h
              refine ⟨fun m => ?_, fun _ => hstats⟩
              rw [hasCol_setColQ, hasCol_setColQ]
              constructor
              · intro hm
                rcases (Bool.or_eq_true _ _).mp hm with hm | hm
                · rcases (Bool.or_eq_true _ _).mp hm with hm | hm
                  · exact Or.inl hm
                  · exact Or.inr ⟨h1, Or.inl (eq_of_beq hm)⟩
                · exact Or.inr ⟨h1, Or.inr (eq_of_beq hm)⟩
              · rintro (hm | ⟨-, (rfl | rfl)⟩)
                · simp [hm]
                · simp
                · simp
  -- provider absent: identity
  · obtain rfl : t = u := by simpa using h
    have hpid : hasCol t "provider_id" = false := by simpa using h1
    refine ⟨fun m => ?_, fun hc2 => by simp [hc2] at hpid⟩
    simp [hpid]


theorem rfPatient_spec (t u : Table) (h : rfPatient t = some u) :
    (∀ m, hasCol u m = true ↔
      (hasCol t m = true
       ∨ (hasCol t "patient_id" = true ∧ "patient_provider_diversity" = m)))
    ∧ (hasCol t "patient_id" = true →
        hasCol t "patient_claim_count" = true ∧ hasCol t "patient_unique_providers" = true) := by
  unfold rfPatient at h
  split_ifs at h with h1 h2 h3
  · have hstats : hasCol t "patient_claim_count" = true
        ∧ hasCol t "patient_unique_providers" = true := by
      constructor <;> simp_all
    obtain rfl : t = u := by simpa using h
    refine ⟨fun m => ?_, fun _ => hstats⟩
    constructor
    · exact fun hm => Or.inl hm
    · rintro (hm | ⟨-, rfl⟩)
      · exact hm
      · exact h3
  · have hstats : hasCol t "patient_claim_count" = true
        ∧ hasCol t "patient_unique_providers" = true := by
      constructor <;> simp_all
    rcases hup : getColQ t "patient_unique_providers" with - | up
    · rw [hup] at h; simp at h
    · rcases hcc : getColQ t "patient_claim_count" with - | cc
      · rw [hup, hcc] at h; simp at h
      · rw [hup, hcc] at h
        simp only [Option.bind_eq_bind, Option.some_bind] at h
        obtain rfl : setColQ t "patient_provider_diversity"
            (List.zipWith (fun a b => a / (b + 1)) up cc) = u := by simpa using h
        refine ⟨fun m => ?_, fun _ => hstats⟩
        rw [hasCol_setColQ]
        constructor
        · intro hm
          rcases (Bool.or_eq_true _ _).mp hm with hm | hm
          · exact Or.inl hm
          · exact Or.inr ⟨h1, eq_of_beq hm⟩
        · rintro (hm | ⟨-, rfl⟩)
          · simp [hm]
          · simp
  · obtain rfl : t = u := by simpa using h
    have hpid : hasCol t "patient_id" = false := by simpa using h1
    refine ⟨fun m => ?_, fun hc2 => by simp [hc2] at hpid⟩
    simp [hpid]


theorem rfFinancial_id (log1p : ℚ → ℚ) (t : Table)
    (h : hasCol t "claim_amount" = true →
      hasCol t "claim_amount_log" = true ∧ hasCol t "is_high_amount" = true) :
    rfFinancial log1p t = t := by
  simp only [rfFinancial]
  split_ifs <;> simp_all


theorem rfProvider_id (t : Table)
    (h : hasCol t "provider_id" = true →
      hasCol t "provider_claim_count" = true ∧ hasCol t "provider_unique_patients" = true
      ∧ hasCol t "provider_claims_per_patient" = true
      ∧ hasCol t "provider_amount_variation" = true) :
    rfProvider t = some t := by
  unfold rfProvider
  split_ifs <;> simp_all [Option.bind_eq_bind, Option.some_bind]


theorem rfPatient_id (t : Table)
    (h : hasCol t "patient_id" = true →
      hasCol t "patient_claim_count" = true ∧ hasCol t "patient_unique_providers" = true
      ∧ hasCol t "patient_provider_diversity" = true) :
    rfPatient t = some t := by
  unfold rfPatient
  split_ifs <;> simp_all [Option.bind_eq_bind, Option.some_bind]


theorem rfDiagnosis_id (d : ℚ → Bool) (t : Table)
    (h : hasCol t "diagnosis_code" = true → hasCol t "is_high_risk_diagnosis" = true) :
    rfDiagnosis d t = t := by
  simp only [rfDiagnosis]
  split_ifs <;> simp_all


theorem rfProcedure_id (p : ℚ → Bool) (t : Table)
    (h : hasCol t "procedure_code" = true → hasCol t "is_high_value_procedure" = true) :
    rfProcedure p t = t := by
  simp only [rfProcedure]
  split_ifs <;> simp_all


theorem rfLocation_id (t : Table)
    (h : hasCol t "provider_location" = true → hasCol t "patient_location" = true →
      hasCol t "location_mismatch" = true) :
    rfLocation t = t := by
  simp only [rfLocation]
  split_ifs <;> simp_all


theorem rfDuplicate_id (t : Table)
    (h : 2 ≤ (availableCols t).length → hasCol t "duplicate_claim_indicator" = true) :
    rfDuplicate t = t := by
  simp only [rfDuplicate]
  split_ifs <;> simp_all


/-- On a stable frame, `prepare_features` is the identity: every presence
guard fires and every derived column is skipped. -/
theorem rfPrepare_of_stable (log1p : ℚ → ℚ) (d p : ℚ → Bool) (t : Table)
    (h : rfStable t) :
    rfPrepareFeatures log1p d p t = some t := by
  obtain ⟨hcd, hfin, hprov, hpat, hdiag, hproc, hloc, hdup⟩ := h
  unfold rfPrepareFeatures
  rw [hcd]
  simp only [Bool.false_eq_true, if_false]
  rw [rfFinancial_id log1p t hfin]
  rw [rfProvider_id t hprov]
  simp only [Option.bind_eq_bind, Option.some_bind]
  rw [rfPatient_id t hpat]
  simp only [Option.bind_eq_bind, Option.some_bind]
  rw [rfDiagnosis_id d t hdiag, rfProcedure_id p t hproc, rfLocation_id t hloc,
    rfDuplicate_id t hdup]


/-- The output of `prepare_features` is stable: every branch materialises
its derived columns, so a second application has nothing left to do. -/
theorem rfPrepare_stable (log1p : ℚ → ℚ) (d p : ℚ → Bool) (t u : Table)
    (h : rfPrepareFeatures log1p d p t = some u) : rfStable u := by
  unfold rfPrepareFeatures at h
  split_ifs at h with h1
  simp only [Option.bind_eq_bind] at h
  rcases hp : rfProvider (rfFinancial log1p t) with - | t2
  · rw [hp] at h; simp at h
  · rw [hp] at h
    simp only [Option.some_bind] at h
    rcases hq : rfPatient t2 with - | t3
    · rw [hq] at h; simp at h
    · rw [hq] at h
      simp only [Option.some_bind] at h
      obtain rfl : rfDuplicate (rfLocation (rfProcedure p (rfDiagnosis d t3))) = u := by
        simpa using h
      have S1 := rfProvider_spec (rfFinancial log1p t) t2 hp
      have S2 := rfPatient_spec t2 t3 hq
      have Tpure : ∀ m, "is_high_risk_diagnosis" ≠ m → "is_high_value_procedure" ≠ m →
          "location_mismatch" ≠ m → "duplicate_claim_indicator" ≠ m →
          hasCol (rfDuplicate (rfLocation (rfProcedure p (rfDiagnosis d t3)))) m
            = hasCol t3 m := by
        intro m hm1 hm2 hm3 hm4
        simp [rfDuplicate_hasCol, rfLocation_hasCol, rfProcedure_hasCol, rfDiagnosis_hasCol,
          beq_eq_false_iff_ne.mpr hm1, beq_eq_false_iff_ne.mpr hm2,
          beq_eq_false_iff_ne.mpr hm3, beq_eq_false_iff_ne.mpr hm4]
      have Tpat : ∀ m, "patient_provider_diversity" ≠ m →
          (hasCol t3 m = true ↔ hasCol t2 m = true) := by
        intro m hm
        rw [S2.1 m]
        constructor
        · rintro (hx | ⟨-, rfl⟩)
          · exact hx
          · exact absurd rfl hm
        · exact Or.inl
      have Tprov : ∀ m, "provider_claims_per_patient" ≠ m → "provider_amount_variation" ≠ m →
          (hasCol t2 m = true ↔ hasCol (rfFinancial log1p t) m = true) := by
        intro m hm1 hm2
        rw [S1.1 m]
        constructor
        · rintro (hx | ⟨-, (rfl | rfl)⟩)
          · exact hx
          · exact absurd rfl hm1
          · exact absurd rfl hm2
        · exact Or.inl
      have Tfin : ∀ m, "claim_amount_log" ≠ m → "is_high_amount" ≠ m →
          hasCol (rfFinancial log1p t) m = hasCol t m := by
        intro m hm1 hm2
        simp [rfFinancial_hasCol, beq_eq_false_iff_ne.mpr hm1, beq_eq_false_iff_ne.mpr hm2]
      have Tall : ∀ m, "claim_amount_log" ≠ m → "is_high_amount" ≠ m →
          "provider_claims_per_patient" ≠ m → "provider_amount_variation" ≠ m →
          "patient_provider_diversity" ≠ m → "is_high_risk_diagnosis" ≠ m →
          "is_high_value_procedure" ≠ m → "location_mismatch" ≠ m →
          "duplicate_claim_indicator" ≠ m →
          (hasCol (rfDuplicate (rfLocation (rfProcedure p (rfDiagnosis d t3)))) m = true
            ↔ hasCol t m = true) := by
        intro m hm1 hm2 hm3 hm4 hm5 hm6 hm7 hm8 hm9
        rw [Tpure m hm6 hm7 hm8 hm9, Tpat m hm5, Tprov m hm3 hm4, Tfin m hm1 hm2]
      have hcd : hasCol t "claim_date" = false := by simpa using h1
      refine ⟨?_, ?_, ?_, ?_, ?_, ?_, ?_, ?_⟩
      -- claim_date stays absent
      · rw [Bool.eq_false_iff]
        intro hx
        have := (Tall "claim_date" (by decide) (by decide) (by decide) (by decide) (by decide)
          (by decide) (by decide) (by decide) (by decide)).mp hx
        rw [hcd] at this
        exact absurd this (by decide)
      -- financial columns
      · intro hca
        have hca_t : hasCol t "claim_amount" = true :=
          (Tall "claim_amount" (by decide) (by decide) (by decide) (by decide) (by decide)
            (by decide) (by decide) (by decide) (by decide)).mp hca
        have h1fin : hasCol (rfFinancial log1p t) "claim_amount_log" = true := by
          simp [rfFinancial_hasCol, hca_t]
        have h2fin : hasCol (rfFinancial log1p t) "is_high_amount" = true := by
          simp [rfFinancial_hasCol, hca_t]
        constructor
        · rw [Tpure _ (by decide) (by decide) (by decide) (by decide)]
          exact (Tpat _ (by decide)).mpr ((Tprov _ (by decide) (by decide)).mpr h1fin)
        · rw [Tpure _ (by decide) (by decide) (by decide) (by decide)]
          exact (Tpat _ (by decide)).mpr ((Tprov _ (by decide) (by decide)).mpr h2fin)
      -- provider columns
      · intro hpid
        have hpid3 : hasCol t3 "provider_id" = true := by
          rw [← Tpure _ (by decide) (by decide) (by decide) (by decide)]
          exact hpid
        have hpid1 : hasCol (rfFinancial log1p t) "provider_id" = true :=
          (Tprov _ (by decide) (by decide)).mp ((Tpat _ (by decide)).mp hpid3)
        have hstats := S1.2 hpid1
        have hcpp2 : hasCol t2 "provider_claims_per_patient" = true :=
          (S1.1 _).mpr (Or.inr ⟨hpid1, Or.inl rfl⟩)
        have hpav2 : hasCol t2 "provider_amount_variation" = true :=
          (S1.1 _).mpr (Or.inr ⟨hpid1, Or.inr rfl⟩)
        refine ⟨?_, ?_, ?_, ?_⟩
        · rw [Tpure _ (by decide) (by decide) (by decide) (by decide)]
          exact (Tpat _ (by decide)).mpr ((Tprov _ (by decide) (by decide)).mpr hstats.1)
        · rw [Tpure _ (by decide) (by decide) (by decide) (by decide)]
          exact (Tpat _ (by decide)).mpr ((Tprov _ (by decide) (by decide)).mpr hstats.2)
        · rw [Tpure _ (by decide) (by decide) (by decide) (by decide)]
          exact (Tpat _ (by decide)).mpr hcpp2
        · rw [Tpure _ (by decide) (by decide) (by decide) (by decide)]
          exact (Tpat _ (by decide)).mpr hpav2
      -- patient columns
      · intro hpid
        have hpid3 : hasCol t3 "patient_id" = true := by
          rw [← Tpure _ (by decide) (by decide) (by decide) (by decide)]
          exact hpid
        have hpid2 : hasCol t2 "patient_id" = true := (Tpat _ (by decide)).mp hpid3
        have hstats := S2.2 hpid2
        have hppd3 : hasCol t3 "patient_provider_diversity" = true :=
          (S2.1 _).mpr (Or.inr ⟨hpid2, rfl⟩)
        refine ⟨?_, ?_, ?_⟩
        · rw [Tpure _ (by decide) (by decide) (by decide) (by decide)]
          exact (Tpat _ (by decide)).mpr hstats.1
        · rw [Tpure _ (by decide) (by decide) (by decide) (by decide)]
          exact (Tpat _ (by decide)).mpr hstats.2
        · rw [Tpure _ (by decide) (by decide) (by decide) (by decide)]
          exact hppd3
      -- diagnosis column
      · intro hdg
        have hdg3 : hasCol t3 "diagnosis_code" = true := by
          rw [← Tpure _ (by decide) (by decide) (by decide) (by decide)]
          exact hdg
        simp [rfDuplicate_hasCol, rfLocation_hasCol, rfProcedure_hasCol, rfDiagnosis_hasCol,
          hdg3]
      -- procedure column
      · intro hpc
        have hpc3 : hasCol t3 "procedure_code" = true := by
          rw [← Tpure _ (by decide) (by decide) (by decide) (by decide)]
          exact hpc
        simp [rfDuplicate_hasCol, rfLocation_hasCol, rfProcedure_hasCol, rfDiagnosis_hasCol,
          hpc3]
      -- location column
      · intro hpl hpt
        have hpl3 : hasCol t3 "provider_location" = true := by
          rw [← Tpure _ (by decide) (by decide) (by decide) (by decide)]
          exact hpl
        have hpt3 : hasCol t3 "patient_location" = true := by
          rw [← Tpure _ (by decide) (by decide) (by decide) (by decide)]
          exact hpt
        simp [rfDuplicate_hasCol, rfLocation_hasCol, rfProcedure_hasCol, rfDiagnosis_hasCol,
          hpl3, hpt3]
      -- duplicate column
      · intro hlen
        have e1 : ∀ n, "duplicate_claim_indicator" ≠ n →
            hasCol (rfDuplicate (rfLocation (rfProcedure p (rfDiagnosis d t3)))) n
              = hasCol (rfLocation (rfProcedure p (rfDiagnosis d t3))) n := fun n hn => by
          simp [rfDuplicate_hasCol, beq_eq_false_iff_ne.mpr hn]
        have havail : availableCols (rfDuplicate (rfLocation (rfProcedure p (rfDiagnosis d t3))))
            = availableCols (rfLocation (rfProcedure p (rfDiagnosis d t3))) := by
          simp only [availableCols, List.filter_cons, List.filter_nil]
          rw [e1 "patient_id" (by decide), e1 "provider_id" (by decide),
            e1 "diagnosis_code" (by decide), e1 "procedure_code" (by decide)]
        rw [rfDuplicate_hasCol]
        rw [havail] at hlen
        simp [hlen]


theorem percentile95_123 : percentileLinear 95 [1, 2, 3] = 29/10 := by
  have hfl : ⌊(95 * ((3 : ℚ) - 1) / 100)⌋ = 1 := by
    rw [Int.floor_eq_iff]
    norm_num
  simp only [percentileLinear, List.insertionSort, List.orderedInsert]
  norm_num [hfl]


theorem rfFin_T1 : rfFinancial id rfT1 = rfU1 := by
  have hv : colD rfT1 "claim_amount" = [1, 2, 3] := rfl
  simp only [rfFinancial, hv,
    show hasCol rfT1 "claim_amount" = true from rfl,
    show hasCol rfT1 "claim_amount_log" = false from rfl]
  norm_num [percentile95_123, setColQ, setColB]
  simp [rfT1, rfU1, hasCol, setColQ, setColB]


theorem rfPrep_T1 :
    rfPrepareFeatures id (fun _ => false) (fun _ => false) rfT1 = some rfU1 := by
  unfold rfPrepareFeatures
  rw [show hasCol rfT1 "claim_date" = false from rfl]
  simp only [Bool.false_eq_true, if_false, Option.bind_eq_bind]
  rw [rfFin_T1]
  rw [show rfProvider rfU1 = some rfU1 from rfl]
  simp only [Option.some_bind]
  rw [show rfPatient rfU1 = some rfU1 from rfl]
  simp only [Option.some_bind]
  rw [show rfDiagnosis (fun _ => false) rfU1 = rfU1 from rfl,
    show rfProcedure (fun _ => false) rfU1 = rfU1 from rfl,
    show rfLocation rfU1 = rfU1 from rfl,
    show rfDuplicate rfU1 = rfU1 from rfl]


/-- C6 counterexample: feature engineering is NOT idempotent for the
cluster-detector adapter.  On the one-column frame `kmT0`, a second
application of `FraudDetectionKMeans.prepare_features` derives z-score and
percentile columns of the previously derived columns, so the column set
changes from 3 to 7 columns — refuting the claim that for every adapter
`prepare_features (prepare_features df) = prepare_features df`. -/
theorem C6_counterexample :
    (kmeansPrepareFeatures id kmT0).bind (kmeansPrepareFeatures id)
        ≠ kmeansPrepareFeatures id kmT0
    ∧ Option.map (fun t : Table => t.map (fun c => c.name))
        ((kmeansPrepareFeatures id kmT0).bind (kmeansPrepareFeatures id))
      = some ["a", "a_zscore", "a_percentile", "a_zscore_zscore", "a_zscore_percentile",
          "a_percentile_zscore", "a_percentile_percentile"]
    ∧ Option.map (fun t : Table => t.map (fun c => c.name)) (kmeansPrepareFeatures id kmT0)
      = some ["a", "a_zscore", "a_percentile"] := by
  rw [kmPrep_T0]
  simp only [Option.some_bind]
  rw [kmPrep_once]
  have hn : kmTwice.map (fun c => c.name) ≠ kmOnce.map (fun c => c.name) := by decide
  refine ⟨fun hc => hn ?_, rfl, rfl⟩
  rw [Option.some.injEq] at hc
  rw [hc]


/-- C6 (amended): the classifier adapter's `prepare_features`
(`FraudDetectionRandomForest.prepare_features`) IS idempotent — every one of
its derived columns is guarded by a presence check, so applying it to its
own output changes neither the column set nor any value; the cluster
adapter's `prepare_features` (and the reconstruction adapter's, which ends
in the same unguarded statistical loop) is not. -/
theorem C6_rf_prepare_idempotent (log1p : ℚ → ℚ) (d p : ℚ → Bool) (t u : Table)
    (h : rfPrepareFeatures log1p d p t = some u) :
    rfPrepareFeatures log1p d p u = some u :=
  rfPrepare_of_stable log1p d p u (rfPrepare_stable log1p d p t u h)


/-- C6 witness: the idempotence theorem applied on a concrete financial
frame. -/
theorem C6_witness :
    rfPrepareFeatures id (fun _ => false) (fun _ => false) rfT1 = some rfU1
    ∧ rfPrepareFeatures id (fun _ => false) (fun _ => false) rfU1 = some rfU1 :=
  ⟨rfPrep_T1, C6_rf_prepare_idempotent id (fun _ => false) (fun _ => false) rfT1 rfU1 rfPrep_T1⟩


/-- Helper: indexing a four-way zip inside its length. -/
theorem zipWith4_getElemQ (f : α → β → γ → δ → ε) :
    ∀ (as : List α) (bs : List β) (cs : List γ) (ds : List δ) (i : ℕ)
      (da : α) (db : β) (dc : γ) (dd : δ),
      i < as.length → i < bs.length → i < cs.length → i < ds.length →
      (zipWith4 f as bs cs ds)[i]?
        = some (f (as.getD i da) (bs.getD i db) (cs.getD i dc) (ds.getD i dd))
  | a :: as, b :: bs, c :: cs, d :: ds, 0, da, db, dc, dd, _, _, _, _ => by
      simp [zipWith4, List.getD]
  | a :: as, b :: bs, c :: cs, d :: ds, i + 1, da, db, dc, dd, ha, hb, hc, hd => by
      simp only [zipWith4, List.getElem?_cons_succ, List.getD_cons_succ]
      exact zipWith4_getElemQ f as bs cs ds i da db dc dd
        (Nat.lt_of_succ_lt_succ ha) (Nat.lt_of_succ_lt_succ hb)
        (Nat.lt_of_succ_lt_succ hc) (Nat.lt_of_succ_lt_succ hd)
  | [], _, _, _, i, _, _, _, _, ha, _, _, _ => by simp at ha
  | _ :: _, [], _, _, i, _, _, _, _, _, hb, _, _ => by simp at hb
  | _ :: _, _ :: _, [], _, i, _, _, _, _, _, _, hc, _ => by simp at hc
  | _ :: _, _ :: _, _ :: _, [], i, _, _, _, _, _, _, _, hd => by simp at hd


/-- C1 (amended): under the `weighted` policy, the returned probability at
each row is exactly `w_rf*p_rf + w_ae*p_ae + w_km*p_km`, and the label is
`1` exactly where that combined probability is STRICTLY greater than `0.5`
(the source compares with `>`, so a row at exactly `0.5` is labelled `0`). -/
theorem C1_weighted_combination (w : Weights) (rf_proba ae_proba : List ℚ)
    (ae_pred : List ℕ) (kmeans_proba : List ℚ) (i : ℕ)
    (hi : i < rf_proba.length)
    (hb : i < ae_proba.length) (hc : i < ae_pred.length) (hd : i < kmeans_proba.length) :
    ((ensemblePredict w .weighted rf_proba ae_proba ae_pred kmeans_proba).2).getD i 0
      = w.rf * rf_proba.getD i 0 + w.ae * ae_proba.getD i 0 + w.km * kmeans_proba.getD i 0
    ∧ (((ensemblePredict w .weighted rf_proba ae_proba ae_pred kmeans_proba).1).getD i 0 = 1
      ↔ w.rf * rf_proba.getD i 0 + w.ae * ae_proba.getD i 0 + w.km * kmeans_proba.getD i 0
          > 1/2) := by
  have hz := zipWith4_getElemQ (combineRow w .weighted) rf_proba ae_proba ae_pred kmeans_proba
    i 0 0 0 0 hi hb hc hd
  constructor
  · rw [List.getD_eq_getElem?_getD, ensemblePredict, List.getElem?_map, hz]
    simp [combineRow]
  · rw [List.getD_eq_getElem?_getD, ensemblePredict, List.getElem?_map, hz]
    simp only [Option.map_some', Option.getD_some, combineRow]
    rw [List.getD_eq_getElem?_getD, List.getD_eq_getElem?_getD,
      List.getD_eq_getElem?_getD]
    split_ifs with hcmp
    · simp only [true_iff]
      linarith [hcmp]
    · simp only [OfNat.zero_ne_ofNat, false_iff, not_lt]
      linarith [not_lt.mp hcmp]


/-- C1 witness. -/
theorem C1_witness :
    ((ensemblePredict defaultWeights .weighted [1] [1] [0] [1]).2).getD 0 0
      = defaultWeights.rf * ([1] : List ℚ).getD 0 0 + defaultWeights.ae * ([1] : List ℚ).getD 0 0
        + defaultWeights.km * ([1] : List ℚ).getD 0 0
    ∧ (((ensemblePredict defaultWeights .weighted [1] [1] [0] [1]).1).getD 0 0 = 1
      ↔ defaultWeights.rf * ([1] : List ℚ).getD 0 0 + defaultWeights.ae * ([1] : List ℚ).getD 0 0
          + defaultWeights.km * ([1] : List ℚ).getD 0 0 > 1/2) :=
  C1_weighted_combination defaultWeights [1] [1] [0] [1] 0
    (by decide) (by decide) (by decide) (by decide)


/-- C1 counterexample: with the default weights and adapter probabilities
`(1, 0, 0)` the combined probability is exactly `0.5`, which satisfies the
claim's `≥ 0.5` condition, yet the code labels the row `0`, not `1`. -/
theorem C1_counterexample :
    (ensemblePredict defaultWeights .weighted [1] [0] [0] [0]).2 = [1/2]
    ∧ (ensemblePredict defaultWeights .weighted [1] [0] [0] [0]).1 = [0]
    ∧ ((1 : ℚ)/2 ≥ 1/2) := by
  refine ⟨?_, ?_, by norm_num⟩ <;>
    norm_num [ensemblePredict, combineRow, zipWith4, defaultWeights]


/-- C3: `set_weights` normalises, so for non-negative inputs with positive
sum the stored weights sum to exactly `1`. -/
theorem C3_setWeights_normalized (rf_weight ae_weight kmeans_weight : ℚ)
    (h1 : 0 ≤ rf_weight) (h2 : 0 ≤ ae_weight) (h3 : 0 ≤ kmeans_weight)
    (hpos : 0 < rf_weight + ae_weight + kmeans_weight) :
    (setWeights rf_weight ae_weight kmeans_weight).rf
      + (setWeights rf_weight ae_weight kmeans_weight).ae
      + (setWeights rf_weight ae_weight kmeans_weight).km = 1 := by
  simp only [setWeights]
  rw [div_add_div_same, div_add_div_same, div_self (ne_of_gt hpos)]


/-- C3 witness. -/
theorem C3_witness :
    (setWeights 2 3 5).rf + (setWeights 2 3 5).ae + (setWeights 2 3 5).km = 1 :=
  C3_setWeights_normalized 2 3 5 (by norm_num) (by norm_num) (by norm_num) (by norm_num)


/-- C7: querying cluster fraud probabilities while `self.fraud_clusters` is
empty raises the precondition `ValueError` (`none`); it never silently
returns a zero vector. -/
theorem C7_empty_fraud_clusters (fraud_clusters : List ℕ)
    (cluster_fraud_rates : List (ℕ × ℚ)) (cluster_labels : List ℕ)
    (h : fraud_clusters = []) :
    predictFraudProbability fraud_clusters cluster_fraud_rates cluster_labels = none := by
  subst h
  simp [predictFraudProbability]


/-- C7 witness. -/
theorem C7_witness : predictFraudProbability [] [(0, 1/2)] [0, 0, 1] = none :=
  C7_empty_fraud_clusters [] [(0, 1/2)] [0, 0, 1] rfl


/-- Helper: one-row comparison of unanimous and majority votes. -/
theorem combineRow_unanimous_le_majority (w : Weights) (rf ae : ℚ) (aeV : ℕ) (km : ℚ)
    (hv : aeV ≤ 1) (h1 : (combineRow w .unanimous rf ae aeV km).1 = 1) :
    (combineRow w .majority rf ae aeV km).1 = 1 := by
  simp only [combineRow] at h1 ⊢
  interval_cases aeV <;> split_ifs at h1 ⊢ <;> simp_all


/-- C2 (amended): for the same adapter outputs, every row flagged by the
`unanimous` policy is flagged by the `majority` policy (all three votes set
implies at least two).  The claim's second inclusion — majority into
weighted at threshold 0.5 — does NOT hold; see the counterexample. -/
theorem C2_unanimous_subset_majority (w : Weights) (rf_proba ae_proba : List ℚ)
    (ae_pred : List ℕ) (kmeans_proba : List ℚ)
    (hv : ∀ v ∈ ae_pred, v ≤ 1) (i : ℕ)
    (h1 : ((ensemblePredict w .unanimous rf_proba ae_proba ae_pred kmeans_proba).1).getD i 0
      = 1) :
    ((ensemblePredict w .majority rf_proba ae_proba ae_pred kmeans_proba).1).getD i 0 = 1 := by
  induction rf_proba generalizing ae_proba ae_pred kmeans_proba i with
  | nil => simp [ensemblePredict, zipWith4] at h1
  | cons a as ih =>
      cases ae_proba with
      | nil => simp [ensemblePredict, zipWith4] at h1
      | cons b bs =>
        cases ae_pred with
        | nil => simp [ensemblePredict, zipWith4] at h1
        | cons v vs =>
          cases kmeans_proba with
          | nil => simp [ensemblePredict, zipWith4] at h1
          | cons k ks =>
            cases i with
            | zero =>
                simp only [ensemblePredict, zipWith4, List.map_cons, List.getD_cons_zero] at h1 ⊢
                exact combineRow_unanimous_le_majority w a b v k
                  (hv v (List.mem_cons_self v vs)) h1
            | succ j =>
                simp only [ensemblePredict, zipWith4, List.map_cons, List.getD_cons_succ] at h1 ⊢
                exact ih bs vs ks (fun x hx => hv x (List.mem_cons_of_mem v hx)) j h1


/-- C2 witness. -/
theorem C2_witness :
    ((ensemblePredict defaultWeights .majority [1] [1] [1] [1]).1).getD 0 0 = 1 :=
  C2_unanimous_subset_majority defaultWeights [1] [1] [1] [1] (by decide) 0
    (by norm_num [ensemblePredict, zipWith4, combineRow, defaultWeights])


/-- C2 counterexample: the claim's inclusion of the majority-flagged set in
the weighted-flagged set fails.  With default weights, `rf_proba = 0.6`, an
autoencoder vote of `1` (its own threshold) and `kmeans_proba = 0`, the
majority policy flags the row (two of three votes), while the weighted
combination is `0.5*0.6 + 0.3*0 + 0.2*0 = 0.3 ≤ 0.5`, so the weighted
policy does not. -/
theorem C2_counterexample :
    (ensemblePredict defaultWeights .majority [3/5] [0] [1] [0]).1 = [1]
    ∧ (ensemblePredict defaultWeights .weighted [3/5] [0] [1] [0]).1 = [0] := by
  constructor <;> norm_num [ensemblePredict, combineRow, zipWith4, defaultWeights]


/-- Helper: every element is at most the numpy max. -/
theorem le_listMax : ∀ (l : List ℚ), ∀ x ∈ l, x ≤ listMax l
  | [], x, hx => by simp at hx
  | a :: as, x, hx => by
      simp only [listMax]
      have step : ∀ (ys : List ℚ) (b : ℚ), b ≤ ys.foldl max b := by
        intro ys
        induction ys with
        | nil => simp
        | cons y ys ih =>
            intro b
            calc b ≤ max b y := le_max_left b y
            _ ≤ ys.foldl max (max b y) := ih (max b y)
      have mono : ∀ (ys : List ℚ) (b c : ℚ), b ≤ c → ys.foldl max b ≤ ys.foldl max c := by
        intro ys
        induction ys with
        | nil => intro b c h; simpa using h
        | cons y ys ih =>
            intro b c h
            exact ih (max b y) (max c y) (max_le_max h le_rfl)
      rcases List.mem_cons.mp hx with rfl | hx2
      · exact step as x
      · have : ∀ (ys : List ℚ) (b : ℚ), x ∈ ys → x ≤ ys.foldl max b := by
          intro ys
          induction ys with
          | nil => intro b h; simp at h
          | cons y ys ih =>
              intro b h
              rcases List.mem_cons.mp h with rfl | h2
              · calc x ≤ max b x := le_max_right b x
                _ ≤ ys.foldl max (max b x) := step ys (max b x)
              · exact ih (max b y) h2
        exact this as a hx2


/-- Helper: the numpy min is at most every element. -/
theorem listMin_le : ∀ (l : List ℚ), ∀ x ∈ l, listMin l ≤ x
  | [], x, hx => by simp at hx
  | a :: as, x, hx => by
      simp only [listMin]
      have step : ∀ (ys : List ℚ) (b : ℚ), ys.foldl min b ≤ b := by
        intro ys
        induction ys with
        | nil => simp
        | cons y ys ih =>
            intro b
            calc ys.foldl min (min b y) ≤ min b y := ih (min b y)
            _ ≤ b := min_le_left b y
      rcases List.mem_cons.mp hx with rfl | hx2
      · exact step as x
      · have : ∀ (ys : List ℚ) (b : ℚ), x ∈ ys → ys.foldl min b ≤ x := by
          intro ys
          induction ys with
          | nil => intro b h; simp at h
          | cons y ys ih =>
              intro b h
              rcases List.mem_cons.mp h with rfl | h2
              · calc ys.foldl min (min b x) ≤ min b x := step ys (min b x)
                _ ≤ x := min_le_right b x
              · exact ih (min b y) h2
        exact this as a hx2


/-- Helper: the numpy max of a nonempty vector is attained. -/
theorem listMax_mem : ∀ (l : List ℚ), l ≠ [] → listMax l ∈ l
  | [], h => absurd rfl h
  | a :: as, _ => by
      simp only [listMax]
      have : ∀ (ys : List ℚ) (b : ℚ), ys.foldl max b = b ∨ ys.foldl max b ∈ ys := by
        intro ys
        induction ys with
        | nil => intro b; exact Or.inl rfl
        | cons y ys ih =>
            intro b
            rcases ih (max b y) with h | h
            · rcases max_choice b y with hm | hm
              · exact Or.inl (by rw [List.foldl_cons, h, hm])
              · exact Or.inr (by rw [List.foldl_cons, h, hm]; exact List.mem_cons_self y ys)
            · exact Or.inr (List.mem_cons_of_mem y (by rw [List.foldl_cons]; exact h))
      rcases this as a with h | h
      · rw [h]; exact List.mem_cons_self a as
      · exact List.mem_cons_of_mem a h


/-- Helper: the linear-interpolation percentile of a nonempty vector lies
between its min and max for `0 ≤ q ≤ 100`. -/
theorem percentileLinear_bounds (q : ℚ) (l : List ℚ) (hl : l ≠ [])
    (hq0 : 0 ≤ q) (hq1 : q ≤ 100) :
    listMin l ≤ percentileLinear q l ∧ percentileLinear q l ≤ listMax l := by
  simp only [percentileLinear]
  have hperm := List.perm_insertionSort (fun a b : ℚ => a ≤ b) l
  have hlen : (l.insertionSort (· ≤ ·)).length = l.length := hperm.length_eq
  have hn : 1 ≤ l.length := by
    cases l with
    | nil => exact absurd rfl hl
    | cons a as => simp
  have hpos0 : 0 ≤ q * (((l.insertionSort (· ≤ ·)).length : ℚ) - 1) / 100 := by
    apply div_nonneg _ (by norm_num)
    apply mul_nonneg hq0
    rw [hlen]
    have : (1 : ℚ) ≤ (l.length : ℚ) := by exact_mod_cast hn
    linarith
  have hposn : q * (((l.insertionSort (· ≤ ·)).length : ℚ) - 1) / 100
      ≤ ((l.insertionSort (· ≤ ·)).length : ℚ) - 1 := by
    rw [div_le_iff (by norm_num : (0:ℚ) < 100)]
    rw [hlen]
    have h1 : (1 : ℚ) ≤ (l.length : ℚ) := by exact_mod_cast hn
    nlinarith
  set pos := q * (((l.insertionSort (· ≤ ·)).length : ℚ) - 1) / 100 with hposdef
  have hfl0 : 0 ≤ ⌊pos⌋ := Int.floor_nonneg.mpr hpos0
  have hcast : ((⌊pos⌋.toNat : ℤ) : ℚ) = ((⌊pos⌋ : ℤ) : ℚ) := by
    rw [Int.toNat_of_nonneg hfl0]
  have hig : (⌊pos⌋.toNat : ℚ) ≤ pos := by
    push_cast at hcast
    rw [hcast]
    exact Int.floor_le pos
  have higlt : pos < (⌊pos⌋.toNat : ℚ) + 1 := by
    push_cast at hcast
    rw [hcast]
    exact Int.lt_floor_add_one pos
  have hilt : ⌊pos⌋.toNat < (l.insertionSort (· ≤ ·)).length := by
    have h2 : (⌊pos⌋.toNat : ℚ) ≤ ((l.insertionSort (· ≤ ·)).length : ℚ) - 1 :=
      le_trans hig hposn
    have h3 : ((⌊pos⌋.toNat : ℕ) : ℚ) < (((l.insertionSort (· ≤ ·)).length : ℕ) : ℚ) := by
      linarith
    exact_mod_cast h3
  have hx : (l.insertionSort (· ≤ ·))[⌊pos⌋.toNat]?
      = some ((l.insertionSort (· ≤ ·))[⌊pos⌋.toNat]) :=
    List.getElem?_eq_getElem hilt
  have hxmem : (l.insertionSort (· ≤ ·))[⌊pos⌋.toNat] ∈ l :=
    hperm.mem_iff.mp (List.getElem_mem hilt)
  have hg0 : 0 ≤ pos - (⌊pos⌋.toNat : ℚ) := by linarith
  have hg1 : pos - (⌊pos⌋.toNat : ℚ) ≤ 1 := by linarith
  rw [hx]
  rcases hy : (l.insertionSort (· ≤ ·))[⌊pos⌋.toNat + 1]? with - | y
  · constructor
    · exact listMin_le l _ hxmem
    · exact le_listMax l _ hxmem
  · rcases List.getElem?_eq_some.mp hy with ⟨hlt2, hyeq⟩
    have hymem : y ∈ l := by
      rw [← hyeq]
      exact hperm.mem_iff.mp (List.getElem_mem hlt2)
    have hxm := le_listMax l _ hxmem
    have hym := le_listMax l _ hymem
    have hxn := listMin_le l _ hxmem
    have hyn := listMin_le l _ hymem
    set x := (l.insertionSort (· ≤ ·))[⌊pos⌋.toNat] with hxdef
    set g := pos - (⌊pos⌋.toNat : ℚ) with hgdef
    have e1 : (1 - g) * listMin l ≤ (1 - g) * x :=
      mul_le_mul_of_nonneg_left hxn (by linarith)
    have e2 : g * listMin l ≤ g * y := mul_le_mul_of_nonneg_left hyn hg0
    have e3 : (1 - g) * x ≤ (1 - g) * listMax l :=
      mul_le_mul_of_nonneg_left hxm (by linarith)
    have e4 : g * y ≤ g * listMax l := mul_le_mul_of_nonneg_left hym hg0
    change listMin l ≤ x + g * (y - x) ∧ x + g * (y - x) ≤ listMax l
    have hexp : x + g * (y - x) = (1 - g) * x + g * y := by ring
    rw [hexp]
    constructor
    · linarith [e1, e2]
    · linarith [e3, e4]


theorem uniqueSorted_ne_nil (l : List ℕ) (h : l ≠ []) : uniqueSorted l ≠ [] := by
  intro hc
  have h1 := (List.perm_insertionSort (fun a b : ℕ => a ≤ b) l.dedup)
  rw [uniqueSorted] at hc
  rw [hc] at h1
  have h2 : l.dedup = [] := h1.symm.eq_nil
  rw [List.dedup_eq_nil] at h2
  exact h h2


/-- C9: the autoencoder's decision threshold is set at train time to exactly
the 95th percentile of the training reconstruction errors (so it lies between
their min and max), and `predict` compares each fresh error against that
stored value, not against a percentile of the fresh errors. -/
theorem C9_threshold_95th_percentile (train_errors new_errors : List ℚ)
    (h : train_errors ≠ []) :
    (aeTrain train_errors).threshold = percentileLinear 95 train_errors ∧
    listMin train_errors ≤ (aeTrain train_errors).threshold ∧
    (aeTrain train_errors).threshold ≤ listMax train_errors ∧
    aePredict (aeTrain train_errors) new_errors
      = new_errors.map (fun e =>
          if e > percentileLinear 95 train_errors then 1 else 0) := by
  have hb := percentileLinear_bounds 95 train_errors h (by norm_num) (by norm_num)
  exact ⟨rfl, hb.1, hb.2, rfl⟩


theorem C9_witness :
    (([0, 1, 2, 3] : List ℚ) ≠ [] ∧
     (aeTrain [0, 1, 2, 3]).threshold = percentileLinear 95 [0, 1, 2, 3] ∧
     listMin [0, 1, 2, 3] ≤ (aeTrain [0, 1, 2, 3]).threshold ∧
     (aeTrain [0, 1, 2, 3]).threshold ≤ listMax [0, 1, 2, 3] ∧
     aePredict (aeTrain [0, 1, 2, 3]) [5]
       = [(5 : ℚ)].map (fun e =>
           if e > percentileLinear 95 [0, 1, 2, 3] then 1 else 0)) :=
  ⟨by simp, C9_threshold_95th_percentile [0, 1, 2, 3] [5] (by simp)⟩


/-- C10: for any nonempty training cluster assignment, the fraud-rate
threshold is a percentile of the finite list of cluster rates, hence bounded
by the maximal rate; therefore `identify_fraud_clusters` always leaves a
non-empty fraud-clusters list, and a subsequent `predict_fraud_probability`
never raises the missing-fraud-clusters `ValueError`. -/
theorem C10_fraud_clusters_nonempty (cluster_labels y new_labels : List ℕ)
    (threshold_percentile : ℚ) (h : cluster_labels ≠ [])
    (hq0 : 0 ≤ threshold_percentile) (hq1 : threshold_percentile ≤ 100) :
    (identifyFraudClusters cluster_labels y threshold_percentile).1 ≠ [] ∧
    predictFraudProbability
      (identifyFraudClusters cluster_labels y threshold_percentile).1
      (identifyFraudClusters cluster_labels y threshold_percentile).2 new_labels
      = some (kmProbaOf (clusterFraudRates cluster_labels y) new_labels) := by
  have hu : uniqueSorted cluster_labels ≠ [] := uniqueSorted_ne_nil _ h
  have hcfr : clusterFraudRates cluster_labels y ≠ [] := by
    unfold clusterFraudRates
    simpa using hu
  have hrates : (clusterFraudRates cluster_labels y).map (·.2) ≠ [] := by
    simpa using hcfr
  have hb := percentileLinear_bounds threshold_percentile _ hrates hq0 hq1
  have hmax := listMax_mem _ hrates
  rcases List.mem_map.mp hmax with ⟨pr, hpr, hpr2⟩
  have hfilter : pr ∈ (clusterFraudRates cluster_labels y).filter
      (fun p => p.2 ≥ percentileLinear threshold_percentile
        ((clusterFraudRates cluster_labels y).map (·.2))) := by
    apply List.mem_filter.mpr
    refine ⟨hpr, ?_⟩
    simp only [decide_eq_true_eq]
    rw [hpr2]
    exact hb.2
  have h1 : (identifyFraudClusters cluster_labels y threshold_percentile).1 ≠ [] := by
    simp only [identifyFraudClusters]
    intro hc
    rw [List.map_eq_nil_iff] at hc
    rw [hc] at hfilter
    exact absurd hfilter (List.not_mem_nil pr)
  refine ⟨h1, ?_⟩
  simp only [predictFraudProbability, if_neg h1]
  rfl


theorem C10_witness :
    (([0, 1, 1] : List ℕ) ≠ [] ∧ (0 : ℚ) ≤ 90 ∧ (90 : ℚ) ≤ 100) ∧
    ((identifyFraudClusters [0, 1, 1] [0, 1, 1] 90).1 ≠ [] ∧
     predictFraudProbability (identifyFraudClusters [0, 1, 1] [0, 1, 1] 90).1
       (identifyFraudClusters [0, 1, 1] [0, 1, 1] 90).2 [1, 0]
       = some (kmProbaOf (clusterFraudRates [0, 1, 1] [0, 1, 1]) [1, 0])) :=
  ⟨⟨by simp, by norm_num, by norm_num⟩,
   C10_fraud_clusters_nonempty [0, 1, 1] [0, 1, 1] [1, 0] 90 (by simp)
     (by norm_num) (by norm_num)⟩


theorem aeProbaOf_bounds (scores : List ℚ) : ∀ p ∈ aeProbaOf scores, 0 ≤ p ∧ p ≤ 1 := by
  intro p hp
  rcases List.mem_map.mp hp with ⟨s, hs, rfl⟩
  have h1 := listMin_le scores s hs
  have h2 := le_listMax scores s hs
  have hden : 0 < listMax scores - listMin scores + 1/100000000 := by linarith
  constructor
  · exact div_nonneg (by linarith) (le_of_lt hden)
  · rw [div_le_one hden]
    linarith


theorem lookup_mem : ∀ (l : List (ℕ × ℚ)) (a : ℕ) (b : ℚ),
    l.lookup a = some b → (a, b) ∈ l := by
  intro l
  induction l with
  | nil => intro a b h; simp [List.lookup] at h
  | cons hd tl ih =>
    intro a b h
    obtain ⟨k, v⟩ := hd
    simp only [List.lookup] at h
    cases hak : a == k with
    | true =>
      rw [hak] at h
      simp only [Option.some.injEq] at h
      have hk : a = k := eq_of_beq hak
      subst hk
      subst h
      exact List.mem_cons_self _ _
    | false =>
      rw [hak] at h
      exact List.mem_cons_of_mem _ (ih a b h)


theorem clusterFraudRates_bounds (cluster_labels y : List ℕ)
    (hy : ∀ v ∈ y, v ≤ 1) :
    ∀ pr ∈ clusterFraudRates cluster_labels y, 0 ≤ pr.2 ∧ pr.2 ≤ 1 := by
  intro pr hpr
  rcases List.mem_map.mp hpr with ⟨cid, hcid, rfl⟩
  simp only [clusterFraudRates]
  set members : List ℚ :=
    ((cluster_labels.zip y).filter (fun p => p.1 = cid)).map (fun x => (x.2 : ℚ)) with hm
  by_cases hlen : members.length = 0
  · simp only [if_pos hlen]
    norm_num
  · simp only [if_neg hlen]
    have hmem1 : ∀ v ∈ members, v ≤ (1 : ℚ) := by
      intro v hv
      rw [hm] at hv
      rcases List.mem_map.mp hv with ⟨q, hq, rfl⟩
      have hq2 : q.2 ≤ 1 := hy _ (List.of_mem_zip (List.mem_filter.mp hq).1).2
      exact_mod_cast hq2
    have hmem0 : ∀ v ∈ members, (0 : ℚ) ≤ v := by
      intro v hv
      rw [hm] at hv
      rcases List.mem_map.mp hv with ⟨q, hq, rfl⟩
      positivity
    have hsum : members.sum ≤ (members.length : ℚ) := by
      have h := List.sum_le_card_nsmul members 1 hmem1
      simpa using h
    have hlpos : 0 < (members.length : ℚ) := by
      have h0 : 0 < members.length := Nat.pos_of_ne_zero hlen
      exact_mod_cast h0
    constructor
    · exact div_nonneg (List.sum_nonneg hmem0) (le_of_lt hlpos)
    · rw [div_le_one hlpos]
      exact hsum


theorem kmProbaOf_bounds (rates : List (ℕ × ℚ)) (labels : List ℕ)
    (hr : ∀ pr ∈ rates, 0 ≤ pr.2 ∧ pr.2 ≤ 1) :
    ∀ p ∈ kmProbaOf rates labels, 0 ≤ p ∧ p ≤ 1 := by
  intro p hp
  rcases List.mem_map.mp hp with ⟨cid, hcid, rfl⟩
  rcases hl : rates.lookup cid with - | rate
  · exact ⟨le_refl 0, by norm_num⟩
  · exact hr (cid, rate) (lookup_mem rates cid rate hl)


theorem combineRow_bounds (w : Weights) (m : VotingMethod) (rf ae : ℚ) (aeV : ℕ) (km : ℚ)
    (hrf0 : 0 ≤ rf) (hrf1 : rf ≤ 1) (hae0 : 0 ≤ ae) (hae1 : ae ≤ 1)
    (hv : aeV ≤ 1) (hkm0 : 0 ≤ km) (hkm1 : km ≤ 1)
    (hw1 : 0 ≤ w.rf) (hw2 : 0 ≤ w.ae) (hw3 : 0 ≤ w.km)
    (hws : w.rf + w.ae + w.km = 1) :
    ((combineRow w m rf ae aeV km).1 = 0 ∨ (combineRow w m rf ae aeV km).1 = 1) ∧
    0 ≤ (combineRow w m rf ae aeV km).2 ∧ (combineRow w m rf ae aeV km).2 ≤ 1 := by
  cases m with
  | weighted =>
    simp only [combineRow]
    refine ⟨?_, ?_, ?_⟩
    · split_ifs <;> simp
    · nlinarith [mul_nonneg hw1 hrf0, mul_nonneg hw2 hae0, mul_nonneg hw3 hkm0]
    · nlinarith [mul_le_mul_of_nonneg_left hrf1 hw1, mul_le_mul_of_nonneg_left hae1 hw2,
        mul_le_mul_of_nonneg_left hkm1 hw3]
  | majority =>
    simp only [combineRow]
    refine ⟨?_, ?_, ?_⟩
    · split_ifs <;> simp
    · positivity
    · rw [div_le_one (by norm_num : (0:ℚ) < 3)]
      have h3 : (if rf > 1/2 then (1:ℕ) else 0) + aeV + (if km > 1/2 then (1:ℕ) else 0) ≤ 3 := by
        split_ifs <;> omega
      exact_mod_cast h3
  | unanimous =>
    simp only [combineRow]
    refine ⟨?_, le_min hrf0 (le_min hae0 hkm0), le_trans (min_le_left _ _) hrf1⟩
    interval_cases aeV <;> split_ifs <;> simp


theorem zipWith4_mem (f : α → β → γ → δ → ε) :
    ∀ (as : List α) (bs : List β) (cs : List γ) (ds : List δ),
    ∀ e ∈ zipWith4 f as bs cs ds,
    ∃ a ∈ as, ∃ b ∈ bs, ∃ c ∈ cs, ∃ d ∈ ds, e = f a b c d := by
  intro as
  induction as with
  | nil => intro bs cs ds e he; simp [zipWith4] at he
  | cons a as ih =>
    intro bs cs ds e he
    cases bs with
    | nil => simp [zipWith4] at he
    | cons b bs =>
      cases cs with
      | nil => simp [zipWith4] at he
      | cons c cs =>
        cases ds with
        | nil => simp [zipWith4] at he
        | cons d ds =>
          simp only [zipWith4, List.mem_cons] at he
          rcases he with he | he
          · exact ⟨a, by simp, b, by simp, c, by simp, d, by simp, he⟩
          · rcases ih bs cs ds e he with ⟨a1, ha, b1, hb, c1, hc, d1, hd, hee⟩
            exact ⟨a1, by simp [ha], b1, by simp [hb], c1, by simp [hc],
              d1, by simp [hd], hee⟩


/-- C8: with normalized nonnegative weights, binary autoencoder votes, binary
training labels and random-forest probabilities in `[0,1]`, every ensemble
prediction label is `0` or `1` and every ensemble probability lies in `[0,1]`;
moreover the min–max-normalised reconstruction scores and the per-cluster
fraud rates fed in as adapter probabilities themselves lie in `[0,1]`. -/
theorem C8_predict_output_ranges (w : Weights) (m : VotingMethod)
    (rf_proba ae_scores : List ℚ) (ae_pred : List ℕ)
    (cluster_labels y new_labels : List ℕ)
    (hrf : ∀ p ∈ rf_proba, 0 ≤ p ∧ p ≤ 1)
    (hae : ∀ v ∈ ae_pred, v ≤ 1)
    (hy : ∀ v ∈ y, v ≤ 1)
    (hw1 : 0 ≤ w.rf) (hw2 : 0 ≤ w.ae) (hw3 : 0 ≤ w.km)
    (hws : w.rf + w.ae + w.km = 1) :
    (∀ p ∈ aeProbaOf ae_scores, 0 ≤ p ∧ p ≤ 1) ∧
    (∀ p ∈ kmProbaOf (clusterFraudRates cluster_labels y) new_labels, 0 ≤ p ∧ p ≤ 1) ∧
    (∀ lab ∈ (ensemblePredictFull w m rf_proba ae_scores ae_pred
        (kmProbaOf (clusterFraudRates cluster_labels y) new_labels)).1,
      lab = 0 ∨ lab = 1) ∧
    (∀ p ∈ (ensemblePredictFull w m rf_proba ae_scores ae_pred
        (kmProbaOf (clusterFraudRates cluster_labels y) new_labels)).2,
      0 ≤ p ∧ p ≤ 1) := by
  have haeb := aeProbaOf_bounds ae_scores
  have hkmb := kmProbaOf_bounds (clusterFraudRates cluster_labels y) new_labels
    (clusterFraudRates_bounds cluster_labels y hy)
  refine ⟨haeb, hkmb, ?_, ?_⟩
  · intro lab hlab
    simp only [ensemblePredictFull, ensemblePredict] at hlab
    rcases List.mem_map.mp hlab with ⟨row, hrow, rfl⟩
    rcases zipWith4_mem (combineRow w m) _ _ _ _ row hrow with
      ⟨a, ha, b, hb, c, hc, d, hd, rfl⟩
    exact (combineRow_bounds w m a b c d (hrf a ha).1 (hrf a ha).2
      (haeb b hb).1 (haeb b hb).2 (hae c hc) (hkmb d hd).1 (hkmb d hd).2
      hw1 hw2 hw3 hws).1
  · intro p hp
    simp only [ensemblePredictFull, ensemblePredict] at hp
    rcases List.mem_map.mp hp with ⟨row, hrow, rfl⟩
    rcases zipWith4_mem (combineRow w m) _ _ _ _ row hrow with
      ⟨a, ha, b, hb, c, hc, d, hd, rfl⟩
    exact (combineRow_bounds w m a b c d (hrf a ha).1 (hrf a ha).2
      (haeb b hb).1 (haeb b hb).2 (hae c hc) (hkmb d hd).1 (hkmb d hd).2
      hw1 hw2 hw3 hws).2


theorem C8_witness :
    ((∀ p ∈ ([1/2] : List ℚ), 0 ≤ p ∧ p ≤ 1) ∧
     (∀ v ∈ ([1] : List ℕ), v ≤ 1) ∧
     (∀ v ∈ ([1, 0] : List ℕ), v ≤ 1) ∧
     0 ≤ defaultWeights.rf ∧ 0 ≤ defaultWeights.ae ∧ 0 ≤ defaultWeights.km ∧
     defaultWeights.rf + defaultWeights.ae + defaultWeights.km = 1) ∧
    ((∀ p ∈ aeProbaOf [2, 4], 0 ≤ p ∧ p ≤ 1) ∧
     (∀ p ∈ kmProbaOf (clusterFraudRates [0, 1] [1, 0]) [1], 0 ≤ p ∧ p ≤ 1) ∧
     (∀ lab ∈ (ensemblePredictFull defaultWeights .weighted [1/2] [2, 4] [1]
         (kmProbaOf (clusterFraudRates [0, 1] [1, 0]) [1])).1,
       lab = 0 ∨ lab = 1) ∧
     (∀ p ∈ (ensemblePredictFull defaultWeights .weighted [1/2] [2, 4] [1]
         (kmProbaOf (clusterFraudRates [0, 1] [1, 0]) [1])).2,
       0 ≤ p ∧ p ≤ 1)) :=
  ⟨⟨by norm_num, by simp, by simp, by norm_num [defaultWeights], by norm_num [defaultWeights],
    by norm_num [defaultWeights], by norm_num [defaultWeights]⟩,
   C8_predict_output_ranges defaultWeights .weighted [1/2] [2, 4] [1] [0, 1] [1, 0] [1]
     (by norm_num) (by simp) (by simp)
     (by norm_num [defaultWeights]) (by norm_num [defaultWeights])
     (by norm_num [defaultWeights]) (by norm_num [defaultWeights])⟩


theorem mx_ge (score : Weights → ℚ) :
    ∀ (l : List Weights) (b : ℚ), b ≤ l.foldl (fun a w => max a (score w)) b := by
  intro l
  induction l with
  | nil => intro b; simp
  | cons x xs ih =>
    intro b
    rw [List.foldl_cons]
    exact le_trans (le_max_left b (score x)) (ih (max b (score x)))


theorem score_le_mx (score : Weights → ℚ) :
    ∀ (l : List Weights) (b : ℚ) (w : Weights), w ∈ l →
      score w ≤ l.foldl (fun a w => max a (score w)) b := by
  intro l
  induction l with
  | nil => intro b w hw; simp at hw
  | cons x xs ih =>
    intro b w hw
    rw [List.foldl_cons]
    rcases List.mem_cons.mp hw with h | h
    · subst h
      exact le_trans (le_max_right b (score w)) (mx_ge score xs (max b (score w)))
    · exact ih (max b (score x)) w h


theorem score_le_maxScore (score : Weights → ℚ) (l : List Weights) (w : Weights)
    (hw : w ∈ l) : score w ≤ maxScore score l := by
  rw [maxScore]
  exact score_le_mx score l 0 w hw


theorem fold_const (score : Weights → ℚ) :
    ∀ (l : List Weights) (b : ℚ) (wb : Weights), (∀ w ∈ l, score w ≤ b) →
      l.foldl (scoreFoldStep score) (b, wb) = (b, wb) := by
  intro l
  induction l with
  | nil => intro b wb _; rfl
  | cons x xs ih =>
    intro b wb h
    rw [List.foldl_cons]
    have hx : ¬ (score x > b) := not_lt.mpr (h x (List.mem_cons_self x xs))
    rw [scoreFoldStep, if_neg hx]
    exact ih b wb (fun w hw => h w (List.mem_cons_of_mem x hw))


theorem fold_argmax (score : Weights → ℚ) :
    ∀ (l : List Weights) (b : ℚ) (wb : Weights),
      b < l.foldl (fun a w => max a (score w)) b →
      (l.foldl (scoreFoldStep score) (b, wb)).1
          = l.foldl (fun a w => max a (score w)) b ∧
      l.find? (fun w => score w = l.foldl (fun a w => max a (score w)) b)
          = some (l.foldl (scoreFoldStep score) (b, wb)).2 := by
  intro l
  induction l with
  | nil => intro b wb h; simp at h
  | cons x xs ih =>
    intro b wb h
    rw [List.foldl_cons] at h
    by_cases hxb : score x > b
    · have hmaxx : max b (score x) = score x := max_eq_right (le_of_lt hxb)
      rw [hmaxx] at h
      by_cases h2 : score x < xs.foldl (fun a w => max a (score w)) (score x)
      · have hIH := ih (score x) x h2
        constructor
        · rw [List.foldl_cons, scoreFoldStep, if_pos hxb, List.foldl_cons, hmaxx]
          exact hIH.1
        · have hne : ¬ (score x = xs.foldl (fun a w => max a (score w)) (score x)) :=
            ne_of_lt h2
          rw [List.foldl_cons, hmaxx, List.find?_cons_of_neg _ (by simpa using hne),
            List.foldl_cons, scoreFoldStep, if_pos hxb]
          exact hIH.2
      · have hle : xs.foldl (fun a w => max a (score w)) (score x) ≤ score x :=
          not_lt.mp h2
        have heq : xs.foldl (fun a w => max a (score w)) (score x) = score x :=
          le_antisymm hle (mx_ge score xs (score x))
        have hall : ∀ w ∈ xs, score w ≤ score x := by
          intro w hw
          exact le_trans (score_le_mx score xs (score x) w hw) hle
        have hfold : xs.foldl (scoreFoldStep score) (score x, x) = (score x, x) :=
          fold_const score xs (score x) x hall
        constructor
        · rw [List.foldl_cons, scoreFoldStep, if_pos hxb, hfold, List.foldl_cons, hmaxx, heq]
        · rw [List.foldl_cons, hmaxx, heq, List.find?_cons_of_pos _ (by simp),
            List.foldl_cons, scoreFoldStep, if_pos hxb, hfold]
    · have hxble : score x ≤ b := not_lt.mp hxb
      have hmaxx : max b (score x) = b := max_eq_left hxble
      rw [hmaxx] at h
      have hIH := ih b wb h
      constructor
      · rw [List.foldl_cons, scoreFoldStep, if_neg hxb, List.foldl_cons, hmaxx]
        exact hIH.1
      · have hne : ¬ (score x = xs.foldl (fun a w => max a (score w)) b) :=
          ne_of_lt (lt_of_le_of_lt hxble h)
        rw [List.foldl_cons, hmaxx, List.find?_cons_of_neg _ (by simpa using hne),
          List.foldl_cons, scoreFoldStep, if_neg hxb]
        exact hIH.2


theorem optimizeStep_eq (m : VotingMethod) (rfP aeScores : List ℚ) (aeV : List ℕ)
    (kmP : List ℚ) (y_val : List ℕ) (acc : ℚ × Weights) (w : Weights)
    (h : 1 ∈ y_val ∨ 1 ∈ (ensemblePredictFull w m rfP aeScores aeV kmP).1) :
    optimizeStep m rfP aeScores aeV kmP y_val acc w
      = some (scoreFoldStep (candidateF1 m rfP aeScores aeV kmP y_val) acc w) := by
  rw [optimizeStep]
  have hf : f1Pos y_val ((ensemblePredictFull w m rfP aeScores aeV kmP).1)
      = some (candidateF1 m rfP aeScores aeV kmP y_val w) := by
    rw [candidateF1]
    simp only [f1Pos]
    rw [if_pos h]
    rfl
  rw [hf]
  rw [Option.map_some']
  rfl


theorem foldlM_opt (m : VotingMethod) (rfP aeScores : List ℚ) (aeV : List ℕ)
    (kmP : List ℚ) (y_val : List ℕ) :
    ∀ (l : List Weights),
      (∀ w ∈ l, 1 ∈ y_val ∨ 1 ∈ (ensemblePredictFull w m rfP aeScores aeV kmP).1) →
      ∀ (acc : ℚ × Weights),
        l.foldlM (optimizeStep m rfP aeScores aeV kmP y_val) acc
          = some (l.foldl (scoreFoldStep (candidateF1 m rfP aeScores aeV kmP y_val)) acc) := by
  intro l
  induction l with
  | nil => intro _ acc; rfl
  | cons x xs ih =>
    intro h acc
    rw [List.foldlM_cons, optimizeStep_eq m rfP aeScores aeV kmP y_val acc x
      (h x (List.mem_cons_self x xs))]
    simp only [Option.bind_eq_bind, Option.some_bind]
    rw [ih (fun w hw => h w (List.mem_cons_of_mem x hw))]
    rw [List.foldl_cons]


theorem weightCandidates_eq : weightCandidates =
    [⟨1/5, 9/40, 23/40⟩, ⟨1/5, 7/20, 9/20⟩, ⟨1/5, 19/40, 13/40⟩, ⟨1/5, 3/5, 1/5⟩,
     ⟨7/20, 1/10, 11/20⟩, ⟨7/20, 9/40, 17/40⟩, ⟨7/20, 7/20, 3/10⟩, ⟨7/20, 19/40, 7/40⟩,
     ⟨1/2, 1/10, 2/5⟩, ⟨1/2, 9/40, 11/40⟩, ⟨1/2, 7/20, 3/20⟩,
     ⟨13/20, 1/10, 1/4⟩, ⟨13/20, 9/40, 1/8⟩,
     ⟨4/5, 1/10, 1/10⟩] := by
  rw [weightCandidates, linspace, linspace]
  norm_num [List.range_succ, List.filterMap_cons, List.filterMap_nil]


theorem take50_weightCandidates : weightCandidates.take 50 = weightCandidates := by
  rw [weightCandidates_eq]
  rfl


theorem optimizeWeights_const (w0 : Weights) (m : VotingMethod) (rfP aeScores : List ℚ)
    (aeV : List ℕ) (kmP : List ℚ) (y_val : List ℕ)
    (hmem : ∀ w ∈ weightCandidates.take 50,
      1 ∈ y_val ∨ 1 ∈ (ensemblePredictFull w m rfP aeScores aeV kmP).1)
    (hz : ∀ w ∈ weightCandidates.take 50,
      candidateF1 m rfP aeScores aeV kmP y_val w ≤ 0) :
    optimizeWeights w0 m rfP aeScores aeV kmP y_val = some w0 := by
  rw [optimizeWeights, foldlM_opt m rfP aeScores aeV kmP y_val _ hmem (0, w0),
    fold_const _ _ _ _ hz]
  rfl


/-- C4 (amended): with a positive example in the validation labels (so the
positive-class F1 is always defined), the `'weighted'` voting method, and a
positive best score over the grid, `_optimize_weights` returns exactly the
first candidate in generation order achieving the maximum validation F1.
(The grid itself is `weightCandidates`; when no candidate beats the `best_f1 = 0`
initialisation the optimizer instead keeps the prior weights, see the
counterexample.) -/
theorem C4_optimizer_first_argmax (w0 : Weights) (rfP aeScores : List ℚ)
    (aeV : List ℕ) (kmP : List ℚ) (y_val : List ℕ) (hy : 1 ∈ y_val)
    (hpos : 0 < maxScore (candidateF1 .weighted rfP aeScores aeV kmP y_val) weightCandidates) :
    optimizeWeights w0 .weighted rfP aeScores aeV kmP y_val
      = firstArgmax (candidateF1 .weighted rfP aeScores aeV kmP y_val) weightCandidates := by
  rw [optimizeWeights, take50_weightCandidates,
    foldlM_opt .weighted rfP aeScores aeV kmP y_val _ (fun w _ => Or.inl hy) (0, w0)]
  rw [maxScore] at hpos
  have h := fold_argmax (candidateF1 .weighted rfP aeScores aeV kmP y_val)
    weightCandidates 0 w0 hpos
  rw [firstArgmax, maxScore, h.2]
  rfl


theorem c4_zero_score (w : Weights) :
    candidateF1 .weighted [0] [0] [0] [0] [1] w = 0 := by
  norm_num [candidateF1, ensemblePredictFull, ensemblePredict, zipWith4, combineRow,
    aeProbaOf, listMin, listMax, f1Pos, List.filter]


theorem C4_counterexample :
    optimizeWeights defaultWeights .weighted [0] [0] [0] [0] [1] = some defaultWeights ∧
    firstArgmax (candidateF1 .weighted [0] [0] [0] [0] [1]) weightCandidates
      = some ⟨1/5, 9/40, 23/40⟩ ∧
    defaultWeights ≠ (⟨1/5, 9/40, 23/40⟩ : Weights) := by
  refine ⟨?_, ?_, ?_⟩
  · exact optimizeWeights_const defaultWeights .weighted [0] [0] [0] [0] [1]
      (fun w _ => Or.inl (by simp)) (fun w _ => le_of_eq (c4_zero_score w))
  · rw [firstArgmax, maxScore, weightCandidates_eq]
    simp [c4_zero_score]
  · simp only [defaultWeights, ne_eq, Weights.mk.injEq, not_and]
    intro h
    norm_num at h


theorem c4_unit_score :
    candidateF1 .weighted [1] [0] [1] [1] [1] ⟨1/5, 9/40, 23/40⟩ = 1 := by
  norm_num [candidateF1, ensemblePredictFull, ensemblePredict, zipWith4, combineRow,
    aeProbaOf, listMin, listMax, f1Pos, List.filter]


theorem C4_witness :
    ((1 ∈ ([1] : List ℕ)) ∧
     0 < maxScore (candidateF1 .weighted [1] [0] [1] [1] [1]) weightCandidates) ∧
    optimizeWeights defaultWeights .weighted [1] [0] [1] [1] [1]
      = firstArgmax (candidateF1 .weighted [1] [0] [1] [1] [1]) weightCandidates := by
  have hc1 : (⟨1/5, 9/40, 23/40⟩ : Weights) ∈ weightCandidates := by
    rw [weightCandidates_eq]
    exact List.mem_cons_self _ _
  have hpos : 0 < maxScore (candidateF1 .weighted [1] [0] [1] [1] [1]) weightCandidates := by
    refine lt_of_lt_of_le ?_
      (score_le_maxScore (candidateF1 .weighted [1] [0] [1] [1] [1]) weightCandidates _ hc1)
    rw [c4_unit_score]
    norm_num
  exact ⟨⟨by simp, hpos⟩,
    C4_optimizer_first_argmax defaultWeights [1] [0] [1] [1] [1] (by simp) hpos⟩


theorem c5_score_zero (w : Weights) (hsum : w.rf + w.ae + w.km = 1)
    (h1 : w.ae ≤ 3/5) :
    1 ∈ (ensemblePredictFull w .weighted [1, 1] [0, 1] [0, 0] [1, 1]).1 ∧
    candidateF1 .weighted [1, 1] [0, 1] [0, 0] [1, 1] [0, 0] w = 0 := by
  have hp2 : w.rf + w.ae * (100000000/100000001) + w.km > 1/2 := by linarith
  by_cases hp1 : w.rf + w.km > 1/2
  · constructor
    · norm_num [ensemblePredictFull, ensemblePredict, zipWith4, combineRow, aeProbaOf,
        listMin, listMax, hp1, hp2]
    · norm_num [candidateF1, ensemblePredictFull, ensemblePredict, zipWith4, combineRow,
        aeProbaOf, listMin, listMax, f1Pos, List.filter, hp1, hp2]
  · constructor
    · norm_num [ensemblePredictFull, ensemblePredict, zipWith4, combineRow, aeProbaOf,
        listMin, listMax, hp1, hp2]
    · norm_num [candidateF1, ensemblePredictFull, ensemblePredict, zipWith4, combineRow,
        aeProbaOf, listMin, listMax, f1Pos, List.filter, hp1, hp2]


/-- C5 evidence: the validation labels `[0, 0]` contain no positive example,
yet `_optimize_weights` completes normally — every candidate's positive-class
F1 is silently scored `0` (sklearn's zero-division default) and the prior
weights are kept; no configuration error reaches the caller. -/
theorem C5_no_positive_silent_zero :
    (1 ∉ ([0, 0] : List ℕ)) ∧
    optimizeWeights defaultWeights .weighted [1, 1] [0, 1] [0, 0] [1, 1] [0, 0]
      = some defaultWeights := by
  constructor
  · simp
  · apply optimizeWeights_const
    · intro w hw
      rw [take50_weightCandidates, weightCandidates_eq] at hw
      have hsum : w.rf + w.ae + w.km = 1 := by fin_cases hw <;> norm_num
      have hae : w.ae ≤ 3/5 := by fin_cases hw <;> norm_num
      exact Or.inr (c5_score_zero w hsum hae).1
    · intro w hw
      rw [take50_weightCandidates, weightCandidates_eq] at hw
      have hsum : w.rf + w.ae + w.km = 1 := by fin_cases hw <;> norm_num
      have hae : w.ae ≤ 3/5 := by fin_cases hw <;> norm_num
      exact le_of_eq (c5_score_zero w hsum hae).2
